import Mathlib

/-!
# Build-argument parsing of `variables/parse.go`

A shallow embedding of `ParseCommandLineArgs`, `ParseArgs`, `parseArg`,
`ContainsShell` and `ParseEnvVars`, followed by the properties proved of them.

Go strings are Lean `String`s; a `range` over a string walks its characters
(`String.data`).  A Go result pair `(*Scope, error)` is a pair of options, `none`
standing for `nil`.  The collaborators that live outside `parse.go` (the reserved-name
registry, the process environment, the enclosing collection, the key/value splitter)
are parameters of the functions that call them.
-/

namespace Variables

/-! ## Errors (`github.com/pkg/errors`) -/

/-- An error value: `Errorf` carries a formatted message, `Wrapf` a cause and the
message put in front of it. -/
inductive Error where
  | Errorf (msg : String)
  | Wrapf (cause : Error) (msg : String)
deriving DecidableEq, Repr

/-- The text of an error, `err.Error()`: a wrapped error prints its own message, a
colon and a blank, then the cause. -/
def Error.message : Error → String
  | .Errorf msg => msg
  | .Wrapf cause msg => msg ++ ": " ++ cause.message

/-! ## Characters the scanner and the splitter look for -/

/-- The backslash, code point 92. -/
def backslash : Char := Char.ofNat 92

/-- The single quote, code point 39. -/
def singleQuote : Char := Char.ofNat 39

/-- The dollar sign, code point 36. -/
def dollar : Char := Char.ofNat 36

/-- The opening parenthesis, code point 40. -/
def openParen : Char := Char.ofNat 40

/-- The equals sign, code point 61. -/
def equalsSign : Char := Char.ofNat 61

/-! ## Scopes and collections -/

/-- One insertion into a scope: the name, the value and whether it was added as
active. -/
structure Binding where
  name : String
  value : String
  active : Bool
deriving DecidableEq, Repr

/-- Modelled from the spec: the `Scope` type, `NewScope`, `AddActive` and
`AddInactive` are declared outside `parse.go`.  The spec describes a scope as an
ordered collection of name/value/activation bindings into which each orchestrator
"simply inserts in input order" without de-duplicating; it is kept here as the
sequence of insertions made so far. -/
structure Scope where
  bindings : List Binding
deriving DecidableEq, Repr

/-- The empty scope every orchestrator starts from. -/
def NewScope : Scope := ⟨[]⟩

/-- Insert a binding as active. -/
def Scope.AddActive (s : Scope) (name value : String) : Scope :=
  ⟨s.bindings ++ [⟨name, value, true⟩]⟩

/-- Insert a binding as inactive. -/
def Scope.AddInactive (s : Scope) (name value : String) : Scope :=
  ⟨s.bindings ++ [⟨name, value, false⟩]⟩

/-- Modelled from the spec: the `Collection` type is declared outside `parse.go`;
this file only uses its capability `getActive(name) -> (value, found)`. -/
structure Collection where
  GetActive : String → String × Bool

/-- The callback type `ProcessNonConstantVariableFunc`:
`func(name, expression string) (value string, argIndex int, err error)`. -/
abbrev ProcessNonConstantVariableFunc := String → String → String × Int × Option Error

/-! ## `strings.SplitN` -/

/-- `strings.Index(s, sep)` for a one-character separator: the position of its first
occurrence, `none` for Go's `-1`. -/
def Index (sep : Char) : List Char → Option Nat
  | [] => none
  | c :: cs => if c = sep then some 0 else (Index sep cs).map (· + 1)

/-- The loop of Go's `genSplit`: while cuts remain and the separator occurs, cut
`s[:m]` off and go on with `s[m+len(sep):]`; the rest of the string is the last
part. -/
def genSplit (sep : Char) : Nat → List Char → List (List Char)
  | 0, s => [s]
  | k + 1, s =>
    match Index sep s with
    | none => [s]
    | some m => s.take m :: genSplit sep k (s.drop (m + 1))

/-- `strings.SplitN(s, sep, n)` for a one-character separator and `n ≥ 0`: nothing for
`n = 0`, otherwise at most `n` parts (the count is first capped at `len(s) + 1`, which
never changes the outcome), the last part being the unsplit remainder. -/
def SplitN (s : String) (sep : Char) (n : Nat) : List String :=
  if n = 0 then []
  else (genSplit sep (min n (s.data.length + 1) - 1) s.data).map String.mk

/-- How `%s` prints a slice of strings: the elements between brackets, separated by
blanks. -/
def formatSlice (l : List String) : String :=
  "[" ++ " ".intercalate l ++ "]"

/-! ## `ParseCommandLineArgs` -/

/-- The `for _, arg := range args` loop of `ParseCommandLineArgs`, `ret` being the
scope built so far. -/
def ParseCommandLineArgsLoop (IsBuiltIn : String → Bool) (LookupEnv : String → String × Bool) :
    Scope → List String → Option Scope × Option Error
  | ret, [] => (some ret, none)
  | ret, arg :: rest =>
    let splitArg := SplitN arg equalsSign 2
    if splitArg.length < 1 then
      (none, some (.Errorf ("invalid build arg " ++ formatSlice splitArg)))
    else
      let key := splitArg.getD 0 ""
      let hasValue := decide (splitArg.length = 2)
      let value := if splitArg.length = 2 then splitArg.getD 1 "" else ""
      if IsBuiltIn key then
        (none, some (.Errorf ("built-in arg " ++ key ++ " cannot be passed on the command line")))
      else if !hasValue then
        if !(LookupEnv key).2 then
          (none, some (.Errorf ("env var " ++ key ++ " not set")))
        else
          ParseCommandLineArgsLoop IsBuiltIn LookupEnv (ret.AddInactive key (LookupEnv key).1) rest
      else
        ParseCommandLineArgsLoop IsBuiltIn LookupEnv (ret.AddInactive key value) rest

/-- `ParseCommandLineArgs(args)`, with the reserved-name registry `reserved.IsBuiltIn`
and the process environment `os.LookupEnv` as parameters. -/
def ParseCommandLineArgs (IsBuiltIn : String → Bool) (LookupEnv : String → String × Bool)
    (args : List String) : Option Scope × Option Error :=
  ParseCommandLineArgsLoop IsBuiltIn LookupEnv NewScope args

/-! ## `ParseArgs` and `parseArg` -/

/-- `parseArg(arg, pncvf, current)`: the name, the value and the error. -/
def parseArg (IsBuiltIn : String → Bool) (arg : String)
    (_pncvf : ProcessNonConstantVariableFunc) (current : Collection) :
    String × String × Option Error :=
  let splitArg := SplitN arg equalsSign 2
  if splitArg.length < 1 then
    ("", "", some (.Errorf ("invalid build arg " ++ formatSlice splitArg)))
  else
    let name := splitArg.getD 0 ""
    let hasValue := decide (splitArg.length = 2)
    let value := if splitArg.length = 2 then splitArg.getD 1 "" else ""
    if hasValue then
      if IsBuiltIn name then
        ("", "", some (.Errorf ("value cannot be specified for built-in build arg " ++ name)))
      else
        (name, value, none)
    else
      if !(current.GetActive name).2 then
        ("", "", some (.Errorf ("value not specified for build arg " ++ name ++
          " and no value can be inferred")))
      else
        (name, (current.GetActive name).1, none)

/-- The `for _, arg := range args` loop of `ParseArgs`. -/
def ParseArgsLoop (IsBuiltIn : String → Bool) (pncvf : ProcessNonConstantVariableFunc)
    (current : Collection) : Scope → List String → Option Scope × Option Error
  | ret, [] => (some ret, none)
  | ret, arg :: rest =>
    match parseArg IsBuiltIn arg pncvf current with
    | (_, _, some err) => (none, some (.Wrapf err ("parse build arg " ++ arg)))
    | (name, value, none) =>
      ParseArgsLoop IsBuiltIn pncvf current (ret.AddInactive name value) rest

/-- `ParseArgs(args, pncvf, current)`. -/
def ParseArgs (IsBuiltIn : String → Bool) (args : List String)
    (pncvf : ProcessNonConstantVariableFunc) (current : Collection) :
    Option Scope × Option Error :=
  ParseArgsLoop IsBuiltIn pncvf current NewScope args

/-! ## `ContainsShell` -/

/-- The `for _, c := range s` loop of `ContainsShell` over the characters still to be
read, with the three local variables `escaped`, `singlequoted` and `last`. -/
def ContainsShellLoop : Bool → Bool → Char → List Char → Bool
  | _, _, _, [] => false
  | escaped, singlequoted, last, c :: cs =>
    if escaped then
      ContainsShellLoop false singlequoted (Char.ofNat 0) cs
    else if c = backslash then
      ContainsShellLoop true singlequoted (Char.ofNat 0) cs
    else if c = singleQuote then
      ContainsShellLoop escaped (!singlequoted) (Char.ofNat 0) cs
    else if last = dollar ∧ c = openParen ∧ singlequoted = false then
      true
    else
      ContainsShellLoop escaped singlequoted c cs

/-- `ContainsShell(s)`: the loop started with `escaped = false`,
`singlequoted = false` and `last = 0`. -/
def ContainsShell (s : String) : Bool :=
  ContainsShellLoop false false (Char.ofNat 0) s.data

/-! ## `ParseEnvVars` -/

/-- The `for _, envVar := range envVars` loop of `ParseEnvVars`: the third result of
`ParseKeyValue` is discarded and the pair is added as active. -/
def ParseEnvVarsLoop (ParseKeyValue : String → String × String × Bool) :
    Scope → List String → Scope
  | ret, [] => ret
  | ret, envVar :: rest =>
    let k := (ParseKeyValue envVar).1
    let v := (ParseKeyValue envVar).2.1
    ParseEnvVarsLoop ParseKeyValue (ret.AddActive k v) rest

/-- `ParseEnvVars(envVars)`, with the key/value splitter `ParseKeyValue` (declared
outside `parse.go`) as a parameter. -/
def ParseEnvVars (ParseKeyValue : String → String × String × Bool)
    (envVars : List String) : Scope :=
  ParseEnvVarsLoop ParseKeyValue NewScope envVars


/-! ## The scanner's contract, in the words of its documentation -/

/-- The character at position `i` is escaped: it immediately follows a backslash that
is not itself escaped. -/
def escapedAt (s : List Char) : Nat → Bool
  | 0 => false
  | i + 1 => decide (s[i]? = some backslash) && !escapedAt s i

/-- The number of unescaped single quotes before position `i`. -/
def unescapedQuotesBefore (s : List Char) : Nat → Nat
  | 0 => 0
  | i + 1 =>
    unescapedQuotesBefore s i +
      if s[i]? = some singleQuote ∧ escapedAt s i = false then 1 else 0

/-- An unguarded command substitution opens at position `i`: a dollar sign followed by
an opening parenthesis, neither of them escaped, outside any open single-quoted span. -/
def UnguardedAt (s : List Char) (i : Nat) : Prop :=
  s[i]? = some dollar ∧ s[i + 1]? = some openParen ∧
    escapedAt s i = false ∧ escapedAt s (i + 1) = false ∧
    Even (unescapedQuotesBefore s i)

instance (s : List Char) (i : Nat) : Decidable (UnguardedAt s i) := by
  unfold UnguardedAt; infer_instance


/-! ## Tokens, in the words of the specification -/

/-- The name of a token: the text before its first `=`, the whole token when it has
none. -/
def tokenName (t : String) : String :=
  String.mk (t.data.takeWhile (fun c => c != equalsSign))

/-- The value of a token: the text after its first `=`, empty when it has none. -/
def tokenValue (t : String) : String :=
  String.mk ((t.data.dropWhile (fun c => c != equalsSign)).drop 1)

/-- A call succeeded: it returned a scope and a nil error. -/
def Succeeds (r : Option Scope × Option Error) : Prop :=
  r.1.isSome = true ∧ r.2 = none

instance (r : Option Scope × Option Error) : Decidable (Succeeds r) := by
  unfold Succeeds; infer_instance

/-- Modelled from the spec: the key/value splitter `ParseKeyValue` is declared outside
`parse.go`.  The spec has it split at the first `=` only, giving the left part, the
right part and `true` when an `=` is present, and the whole token, no value and
`false` (the entry is malformed) otherwise. -/
def ParseKeyValue (s : String) : String × String × Bool :=
  if equalsSign ∈ s.data then (tokenName s, tokenValue s, true) else (s, "", false)

/-- A registry that reserves nothing. -/
def reservesNothing (_name : String) : Bool := false

/-- A registry that reserves the single name `RESERVED`. -/
def reservesReserved (name : String) : Bool := name == "RESERVED"

/-- An environment in which only `FOO` is set, to `baz`. -/
def envFoo (name : String) : String × Bool :=
  if name == "FOO" then ("baz", true) else ("", false)

/-- A collection whose only active binding is `FOO`, with value `baz`. -/
def collectionFoo : Collection := ⟨envFoo⟩

/-- A callback that always answers with an empty value. -/
def noCallback : ProcessNonConstantVariableFunc := fun _ _ => ("", 0, none)

/-- A callback that always answers with a value, an index and an error. -/
def failingCallback : ProcessNonConstantVariableFunc :=
  fun name _ => (name, 7, some (.Errorf "not constant"))

/-- A call failed: it returned a nil scope and an error. -/
def Fails (r : Option Scope × Option Error) : Prop :=
  r.1 = none ∧ r.2.isSome = true

instance (r : Option Scope × Option Error) : Decidable (Fails r) := by
  unfold Fails; infer_instance

/-- The error is the one of the defensive branch, `invalid build arg ...`, possibly
under wrappers: the message of its cause starts with `invalid build arg `. -/
def isInvalidBuildArg : Error → Bool
  | .Errorf msg => "invalid build arg ".data.isPrefixOf msg.data
  | .Wrapf cause _ => isInvalidBuildArg cause

/-- A call returned the error of the defensive branch. -/
def returnsInvalidBuildArg (r : Option Scope × Option Error) : Bool :=
  match r.2 with
  | some err => isInvalidBuildArg err
  | none => false

/-! ## Properties of the scanner -/

theorem getElem?_length_append_cons (pre cs : List Char) (c : Char) :
    (pre ++ c :: cs)[pre.length]? = some c := by
  rw [List.getElem?_append_right (le_refl _)]
  simp

theorem unguarded_split (s : List Char) (n : Nat) :
    (∃ i, n ≤ i + 1 ∧ UnguardedAt s i) ↔
      (∃ m, n = m + 1 ∧ UnguardedAt s m) ∨ (∃ i, n + 1 ≤ i + 1 ∧ UnguardedAt s i) := by
  constructor
  · rintro ⟨i, hi, hu⟩
    by_cases h : n = i + 1
    · exact Or.inl ⟨i, h, hu⟩
    · exact Or.inr ⟨i, by omega, hu⟩
  · rintro (⟨m, hm, hu⟩ | ⟨i, hi, hu⟩)
    · exact ⟨m, by omega, hu⟩
    · exact ⟨i, by omega, hu⟩

/-- The pair ending at the character being read is unguarded exactly when the loop's
fourth test fires. -/
theorem unguarded_here (s : List Char) (n : Nat) (c l : Char) (e q : Bool)
    (hc : s[n]? = some c) (he : e = escapedAt s n)
    (hq : q = true ↔ ¬ Even (unescapedQuotesBefore s n))
    (hl : l = dollar ↔ ∃ m, n = m + 1 ∧ s[m]? = some dollar ∧ escapedAt s m = false) :
    (∃ m, n = m + 1 ∧ UnguardedAt s m) ↔
      (l = dollar ∧ c = openParen ∧ e = false ∧ q = false) := by
  have hds : dollar ≠ singleQuote := by decide
  constructor
  · rintro ⟨m, rfl, h1, h2, h3, h4, h5⟩
    refine ⟨hl.2 ⟨m, rfl, h1, h3⟩, ?_, ?_, ?_⟩
    · rw [hc] at h2; exact Option.some.inj h2
    · rw [he]; exact h4
    · have : unescapedQuotesBefore s (m + 1) = unescapedQuotesBefore s m := by
        simp [unescapedQuotesBefore, h1, hds]
      rw [this] at hq
      cases q
      · rfl
      · exact absurd h5 (hq.1 rfl)
  · rintro ⟨h1, h2, h3, h4⟩
    obtain ⟨m, rfl, hm1, hm2⟩ := hl.1 h1
    refine ⟨m, rfl, hm1, ?_, hm2, ?_, ?_⟩
    · rw [hc, h2]
    · rw [← he]; exact h3
    · have : unescapedQuotesBefore s (m + 1) = unescapedQuotesBefore s m := by
        simp [unescapedQuotesBefore, hm1, hds]
      rw [this] at hq
      subst h4
      by_contra hne
      exact absurd (hq.2 hne) (by simp)

theorem parity_flip (q : Bool) (k : Nat) (h : q = true ↔ ¬ Even k) :
    ((!q) = true ↔ ¬ Even (k + 1)) := by
  rw [Nat.even_add_one, not_not]
  cases q
  · simpa using h
  · simpa using h

/-- The loop invariant of `ContainsShell`: with `pre` read and `cs` left, `escaped`,
`singlequoted` and `last = '$'` say what the contract says of position `|pre|`, and
the loop answers true exactly when an unguarded pair ends at or after that position. -/
theorem ContainsShellLoop_iff (s : List Char) :
    ∀ (cs pre : List Char) (e q : Bool) (l : Char),
      pre ++ cs = s → e = escapedAt s pre.length →
      (q = true ↔ ¬ Even (unescapedQuotesBefore s pre.length)) →
      (l = dollar ↔
        ∃ m, pre.length = m + 1 ∧ s[m]? = some dollar ∧ escapedAt s m = false) →
      (ContainsShellLoop e q l cs = true ↔ ∃ i, pre.length ≤ i + 1 ∧ UnguardedAt s i) := by
  intro cs
  induction cs with
  | nil =>
    intro pre e q l hs _ _ _
    simp only [ContainsShellLoop, Bool.false_eq_true, false_iff, not_exists, not_and]
    intro i hi hu
    have h2 := hu.2.1
    have hlen : s.length ≤ i + 1 := by rw [← hs]; simpa using hi
    rw [List.getElem?_eq_none hlen] at h2
    exact absurd h2 (by simp)
  | cons c cs ih =>
    intro pre e q l hs he hq hl
    have hc : s[pre.length]? = some c := by
      rw [← hs]; exact getElem?_length_append_cons pre cs c
    have hs2 : (pre ++ [c]) ++ cs = s := by rw [← hs]; simp
    have hlen : (pre ++ [c]).length = pre.length + 1 := by simp
    have hE : escapedAt s (pre.length + 1) = (decide (c = backslash) && !e) := by
      simp [escapedAt, hc, he]
    have hQ : unescapedQuotesBefore s (pre.length + 1) =
        unescapedQuotesBefore s pre.length + if c = singleQuote ∧ e = false then 1 else 0 := by
      simp [unescapedQuotesBefore, hc, he]
    have hL : ∀ l2 : Char, (l2 = dollar ↔ (c = dollar ∧ e = false)) →
        (l2 = dollar ↔ ∃ m, (pre ++ [c]).length = m + 1 ∧ s[m]? = some dollar ∧
          escapedAt s m = false) := by
      intro l2 h
      rw [h, hlen]
      constructor
      · rintro ⟨h1, h2⟩
        exact ⟨pre.length, rfl, by rw [hc, h1], by rw [← he]; exact h2⟩
      · rintro ⟨m, hm, h1, h2⟩
        have : m = pre.length := by omega
        subst this
        rw [hc] at h1
        exact ⟨Option.some.inj h1, by rw [he]; exact h2⟩
    have hnul : ¬ (Char.ofNat 0 = dollar) := by decide
    rw [unguarded_split, unguarded_here s pre.length c l e q hc he hq hl]
    have key := ih (pre ++ [c])
    rw [hlen] at key
    by_cases h1 : e = true
    · subst h1
      rw [ContainsShellLoop, if_pos rfl]
      rw [key false q (Char.ofNat 0) hs2 (by rw [hE]; simp)
        (by rw [hQ]; simpa using hq) (by rw [← hlen]; exact hL _ (by simp [hnul]))]
      simp
    · have h1f : e = false := by simpa using h1
      subst h1f
      by_cases h2 : c = backslash
      · subst h2
        rw [ContainsShellLoop, if_neg (by simp), if_pos rfl]
        have hbq : ¬ (backslash = singleQuote) := by decide
        have hbd : ¬ (backslash = dollar) := by decide
        have hbp : ¬ (backslash = openParen) := by decide
        rw [key true q (Char.ofNat 0) hs2 (by rw [hE]; simp)
          (by rw [hQ]; simpa [hbq] using hq)
          (by rw [← hlen]; exact hL _ (by simp [hnul, hbd]))]
        simp [hbp]
      · by_cases h3 : c = singleQuote
        · subst h3
          rw [ContainsShellLoop, if_neg (by simp), if_neg h2, if_pos rfl]
          have hqd : ¬ (singleQuote = dollar) := by decide
          have hqp : ¬ (singleQuote = openParen) := by decide
          rw [key false (!q) (Char.ofNat 0) hs2 (by rw [hE]; simp [h2])
            (by rw [hQ]; simpa using parity_flip q _ hq)
            (by rw [← hlen]; exact hL _ (by simp [hnul, hqd]))]
          simp [hqp]
        · by_cases h4 : l = dollar ∧ c = openParen ∧ q = false
          · rw [ContainsShellLoop, if_neg (by simp), if_neg h2, if_neg h3, if_pos h4]
            simp [h4.1, h4.2.1, h4.2.2]
          · rw [ContainsShellLoop, if_neg (by simp), if_neg h2, if_neg h3, if_neg h4]
            rw [key false q c hs2 (by rw [hE]; simp [h2])
              (by rw [hQ]; simpa [h3] using hq)
              (by rw [← hlen]; exact hL _ (by simp))]
            have : ¬ (l = dollar ∧ c = openParen ∧ false = false ∧ q = false) := by
              simpa using h4
            rw [or_iff_right this]

/-- The invariant at the start of the scan, nothing read yet. -/
theorem ContainsShellLoop_start (s : List Char) :
    ContainsShellLoop false false (Char.ofNat 0) s = true ↔ ∃ i, UnguardedAt s i := by
  rw [ContainsShellLoop_iff s s [] false false (Char.ofNat 0) rfl rfl
    (by simp [unescapedQuotesBefore])
    (by
      constructor
      · intro h; exact absurd h (by decide)
      · rintro ⟨m, hm, _⟩; simp at hm)]
  simp

/-- Two neighbouring characters of a list form an infix of it. -/
theorem pair_infix_of_getElem? (s : List Char) (i : Nat) (a b : Char)
    (h1 : s[i]? = some a) (h2 : s[i + 1]? = some b) : [a, b] <:+: s := by
  obtain ⟨hi, rfl⟩ := List.getElem?_eq_some.1 h1
  obtain ⟨hj, rfl⟩ := List.getElem?_eq_some.1 h2
  refine ⟨s.take i, s.drop (i + 2), ?_⟩
  have e1 : s.drop i = s[i] :: s.drop (i + 1) := List.drop_eq_getElem_cons hi
  have e2 : s.drop (i + 1) = s[i + 1] :: s.drop (i + 2) := List.drop_eq_getElem_cons hj
  calc s.take i ++ [s[i], s[i + 1]] ++ s.drop (i + 2)
      = s.take i ++ (s[i] :: s[i + 1] :: s.drop (i + 2)) := by simp
    _ = s.take i ++ s.drop i := by rw [e1, e2]
    _ = s := List.take_append_drop i s

/-- C1: for every string `s`, `ContainsShell(s)` is true if and only if there is a
position `i` with `s[i] = '$'` and `s[i+1] = '('` such that neither of the two
characters is escaped (a character is escaped when it immediately follows a backslash
that is not itself escaped) and the number of unescaped single quotes before `i` is
even. -/
theorem ContainsShell_iff_unguarded (s : String) :
    ContainsShell s = true ↔
      ∃ i, s.data[i]? = some dollar ∧ s.data[i + 1]? = some openParen ∧
        escapedAt s.data i = false ∧ escapedAt s.data (i + 1) = false ∧
        Even (unescapedQuotesBefore s.data i) := by
  unfold ContainsShell
  exact ContainsShellLoop_start s.data

/-- C2: for every string that does not contain the two-character substring `$(`,
`ContainsShell` returns false, whatever backslashes and single quotes it contains. -/
theorem ContainsShell_false_of_no_pair (s : String) (h : ¬ "$(".data <:+: s.data) :
    ContainsShell s = false := by
  cases hres : ContainsShell s with
  | false => rfl
  | true =>
    obtain ⟨i, h1, h2, _⟩ := (ContainsShellLoop_start s.data).1 hres
    exact absurd (pair_infix_of_getElem? s.data i dollar openParen h1 h2) h

/-- C2 at a string with a backslash, single quotes, a dollar sign and a parenthesis but
no `$(`. -/
theorem ContainsShell_false_of_no_pair_witness :
    ¬ "$(".data <:+: "a\\b 'c' $ (d) ($)".data ∧ ContainsShell "a\\b 'c' $ (d) ($)" = false :=
  ⟨by decide, ContainsShell_false_of_no_pair "a\\b 'c' $ (d) ($)" (by decide)⟩

/-! ## Properties of the splitter -/

theorem Index_eq_none (sep : Char) (s : List Char) (h : sep ∉ s) : Index sep s = none := by
  induction s with
  | nil => rfl
  | cons c cs ih =>
    have hc : ¬ c = sep := fun e => h (by simp [e])
    have hcs : sep ∉ cs := fun e => h (by simp [e])
    simp [Index, hc, ih hcs]

theorem Index_append_cons (sep : Char) (a b : List Char) (h : sep ∉ a) :
    Index sep (a ++ sep :: b) = some a.length := by
  induction a with
  | nil => simp [Index]
  | cons c cs ih =>
    have hc : ¬ c = sep := fun e => h (by simp [e])
    have hcs : sep ∉ cs := fun e => h (by simp [e])
    simp [Index, hc, ih hcs]

/-- A list containing the separator splits around its first occurrence. -/
theorem exists_first_occurrence (sep : Char) (s : List Char) (h : sep ∈ s) :
    ∃ a b, sep ∉ a ∧ s = a ++ sep :: b := by
  induction s with
  | nil => simp at h
  | cons c cs ih =>
    by_cases hc : c = sep
    · exact ⟨[], cs, by simp, by simp [hc]⟩
    · have hcs : sep ∈ cs := by
        rcases List.mem_cons.1 h with e | e
        · exact absurd e.symm hc
        · exact e
      obtain ⟨a, b, ha, hb⟩ := ih hcs
      refine ⟨c :: a, b, ?_, by simp [hb]⟩
      intro hm
      rcases List.mem_cons.1 hm with e | e
      · exact hc e.symm
      · exact ha e

theorem equals_data : ("=" : String).data = [equalsSign] := by decide

theorem data_valued (n v : String) :
    (n ++ "=" ++ v).data = n.data ++ equalsSign :: v.data := by
  rw [String.data_append, String.data_append, equals_data, List.append_assoc]
  rfl

theorem drop_succ_append_cons (a b : List Char) (c : Char) :
    (a ++ c :: b).drop (a.length + 1) = b := by
  induction a with
  | nil => rfl
  | cons x xs ih => simp

/-- A token without `=` is returned whole by `SplitN(t, "=", 2)`. -/
theorem SplitN_bare (t : String) (h : equalsSign ∉ t.data) : SplitN t equalsSign 2 = [t] := by
  unfold SplitN
  rw [if_neg (by decide)]
  cases hk : min 2 (t.data.length + 1) - 1 with
  | zero => simp [genSplit]
  | succ k => simp [genSplit, Index_eq_none equalsSign t.data h]

/-- A token `name=value` whose name has no `=` is cut by `SplitN(t, "=", 2)` into the
name and the value. -/
theorem SplitN_valued (n v : String) (h : equalsSign ∉ n.data) :
    SplitN (n ++ "=" ++ v) equalsSign 2 = [n, v] := by
  unfold SplitN
  rw [if_neg (by decide)]
  have hd := data_valued n v
  have hk : min 2 ((n ++ "=" ++ v).data.length + 1) - 1 = 1 := by
    rw [hd]; simp; omega
  rw [hk, hd]
  simp only [genSplit, Index_append_cons equalsSign n.data v.data h, drop_succ_append_cons,
    List.take_left, List.map]

/-- Every token either has no `=` or is `name=value` with no `=` in the name. -/
theorem token_cases (t : String) :
    equalsSign ∉ t.data ∨ ∃ n v : String, equalsSign ∉ n.data ∧ t = n ++ "=" ++ v := by
  by_cases h : equalsSign ∈ t.data
  · obtain ⟨a, b, ha, hb⟩ := exists_first_occurrence equalsSign t.data h
    refine Or.inr ⟨String.mk a, String.mk b, ha, ?_⟩
    apply String.ext
    rw [data_valued, hb]
  · exact Or.inl h

theorem mem_valued (n v : String) : equalsSign ∈ (n ++ "=" ++ v).data := by
  rw [data_valued]; simp

theorem tokenName_bare (t : String) (h : equalsSign ∉ t.data) : tokenName t = t := by
  unfold tokenName
  apply String.ext
  simp only
  rw [List.takeWhile_eq_self_iff]
  intro c hc
  have : ¬ c = equalsSign := fun e => h (e ▸ hc)
  simpa using this

theorem tokenName_valued (n v : String) (h : equalsSign ∉ n.data) :
    tokenName (n ++ "=" ++ v) = n := by
  unfold tokenName
  apply String.ext
  have hd := data_valued n v
  simp only [hd]
  rw [List.takeWhile_append_of_pos]
  · simp [List.takeWhile]
  · intro c hc
    have : ¬ c = equalsSign := fun e => h (e ▸ hc)
    simpa using this

theorem tokenValue_valued (n v : String) (h : equalsSign ∉ n.data) :
    tokenValue (n ++ "=" ++ v) = v := by
  unfold tokenValue
  apply String.ext
  have hd := data_valued n v
  simp only [hd]
  rw [List.dropWhile_append_of_pos]
  · simp [List.dropWhile]
  · intro c hc
    have : ¬ c = equalsSign := fun e => h (e ▸ hc)
    simpa using this

/-! ## One turn of the command-line loop -/

/-- One turn of the loop on a token without `=`: the reserved check, then the
environment. -/
theorem ParseCommandLineArgsLoop_bare (B : String → Bool) (E : String → String × Bool)
    (ret : Scope) (t : String) (rest : List String) (h : equalsSign ∉ t.data) :
    ParseCommandLineArgsLoop B E ret (t :: rest) =
      if B t = true then
        (none, some (.Errorf ("built-in arg " ++ t ++ " cannot be passed on the command line")))
      else if (E t).2 = true then
        ParseCommandLineArgsLoop B E (ret.AddInactive t (E t).1) rest
      else (none, some (.Errorf ("env var " ++ t ++ " not set"))) := by
  rw [ParseCommandLineArgsLoop]
  simp only [SplitN_bare t h]
  by_cases hb : B t = true
  · simp [hb]
  · by_cases he : (E t).2 = true
    · simp [hb, he]
    · simp [hb, he]

/-- One turn of the loop on a token `name=value`: the reserved check only. -/
theorem ParseCommandLineArgsLoop_valued (B : String → Bool) (E : String → String × Bool)
    (ret : Scope) (n v : String) (rest : List String) (h : equalsSign ∉ n.data) :
    ParseCommandLineArgsLoop B E ret ((n ++ "=" ++ v) :: rest) =
      if B n = true then
        (none, some (.Errorf ("built-in arg " ++ n ++ " cannot be passed on the command line")))
      else ParseCommandLineArgsLoop B E (ret.AddInactive n v) rest := by
  rw [ParseCommandLineArgsLoop]
  simp only [SplitN_valued n v h]
  by_cases hb : B n = true
  · simp [hb]
  · simp [hb]

/-- The value the command-line loop binds to a token that resolves: the text after the
first `=`, or the environment's value of the name. -/
theorem ParseCommandLineArgsLoop_cons (B : String → Bool) (E : String → String × Bool)
    (ret : Scope) (t : String) (rest : List String) :
    ParseCommandLineArgsLoop B E ret (t :: rest) =
      if (ParseCommandLineArgs B E [t]).2 = none then
        ParseCommandLineArgsLoop B E
          (ret.AddInactive (tokenName t)
            (if equalsSign ∈ t.data then tokenValue t else (E (tokenName t)).1)) rest
      else (none, (ParseCommandLineArgs B E [t]).2) := by
  unfold ParseCommandLineArgs
  rcases token_cases t with h | ⟨n, v, h, rfl⟩
  · rw [ParseCommandLineArgsLoop_bare B E ret t rest h,
      ParseCommandLineArgsLoop_bare B E NewScope t [] h, tokenName_bare t h, if_neg h]
    by_cases hb : B t = true
    · simp [hb]
    · by_cases he : (E t).2 = true
      · simp [hb, he, ParseCommandLineArgsLoop]
      · simp [hb, he]
  · rw [ParseCommandLineArgsLoop_valued B E ret n v rest h,
      ParseCommandLineArgsLoop_valued B E NewScope n v [] h, tokenName_valued n v h,
      tokenValue_valued n v h, if_pos (mem_valued n v)]
    by_cases hb : B n = true
    · simp [hb]
    · simp [hb, ParseCommandLineArgsLoop]

/-- A token resolves on the command line exactly when its name is not reserved and it
either carries a value or is set in the environment. -/
theorem ParseCommandLineArgs_singleton_ok (B : String → Bool) (E : String → String × Bool)
    (t : String) :
    (ParseCommandLineArgs B E [t]).2 = none ↔
      B (tokenName t) = false ∧ (equalsSign ∈ t.data ∨ (E (tokenName t)).2 = true) := by
  unfold ParseCommandLineArgs
  rcases token_cases t with h | ⟨n, v, h, rfl⟩
  · rw [ParseCommandLineArgsLoop_bare B E NewScope t [] h, tokenName_bare t h]
    by_cases hb : B t = true
    · simp [hb]
    · by_cases he : (E t).2 = true
      · simp [hb, he, h, ParseCommandLineArgsLoop]
      · simp [hb, he, h]
  · rw [ParseCommandLineArgsLoop_valued B E NewScope n v [] h, tokenName_valued n v h]
    have hm := mem_valued n v
    by_cases hb : B n = true
    · simp [hb]
    · have hbf : B n = false := by simpa using hb
      rw [if_neg hb, ParseCommandLineArgsLoop]
      exact ⟨fun _ => ⟨hbf, Or.inl hm⟩, fun _ => rfl⟩

/-- Tokens that all resolve are all inserted, in order, and the loop goes on with the
rest. -/
theorem ParseCommandLineArgsLoop_append (B : String → Bool) (E : String → String × Bool) :
    ∀ (pre : List String) (ret : Scope) (rest : List String),
      (∀ a ∈ pre, (ParseCommandLineArgs B E [a]).2 = none) →
      ParseCommandLineArgsLoop B E ret (pre ++ rest) =
        ParseCommandLineArgsLoop B E
          ⟨ret.bindings ++ pre.map (fun t => ⟨tokenName t,
            if equalsSign ∈ t.data then tokenValue t else (E (tokenName t)).1, false⟩)⟩ rest := by
  intro pre
  induction pre with
  | nil => intro ret rest _; simp
  | cons a as ih =>
    intro ret rest h
    have ha := h a (by simp)
    have has : ∀ x ∈ as, (ParseCommandLineArgs B E [x]).2 = none :=
      fun x hx => h x (by simp [hx])
    rw [List.cons_append, ParseCommandLineArgsLoop_cons, if_pos ha, ih _ rest has]
    simp [Scope.AddInactive]

/-- A call of the command-line loop returns a scope and no error, or no scope and an
error. -/
theorem ParseCommandLineArgsLoop_shape (B : String → Bool) (E : String → String × Bool) :
    ∀ (args : List String) (ret : Scope),
      (∃ sc, ParseCommandLineArgsLoop B E ret args = (some sc, none)) ∨
      (∃ e, ParseCommandLineArgsLoop B E ret args = (none, some e)) := by
  intro args
  induction args with
  | nil => intro ret; exact Or.inl ⟨ret, rfl⟩
  | cons a as ih =>
    intro ret
    rw [ParseCommandLineArgsLoop_cons]
    by_cases ha : (ParseCommandLineArgs B E [a]).2 = none
    · rw [if_pos ha]; exact ih _
    · rw [if_neg ha]
      obtain ⟨e, he⟩ := Option.ne_none_iff_exists'.1 ha
      exact Or.inr ⟨e, by rw [he]⟩

theorem Succeeds_ParseCommandLineArgs_iff (B : String → Bool) (E : String → String × Bool)
    (args : List String) :
    Succeeds (ParseCommandLineArgs B E args) ↔ (ParseCommandLineArgs B E args).2 = none := by
  unfold Succeeds ParseCommandLineArgs
  rcases ParseCommandLineArgsLoop_shape B E args NewScope with ⟨sc, h⟩ | ⟨e, h⟩
  · simp [h]
  · simp [h]

/-- The command-line loop ends without an error exactly when every token resolves on
its own, whatever scope it starts from. -/
theorem ParseCommandLineArgsLoop_ok_iff (B : String → Bool) (E : String → String × Bool) :
    ∀ (args : List String) (ret : Scope),
      (ParseCommandLineArgsLoop B E ret args).2 = none ↔
        ∀ a ∈ args, (ParseCommandLineArgs B E [a]).2 = none := by
  intro args
  induction args with
  | nil => intro ret; simp [ParseCommandLineArgsLoop]
  | cons a as ih =>
    intro ret
    rw [ParseCommandLineArgsLoop_cons]
    by_cases ha : (ParseCommandLineArgs B E [a]).2 = none
    · rw [if_pos ha, ih]
      simp [ha]
    · rw [if_neg ha]
      simp [ha]

/-! ## One turn of the build-step loop -/

/-- `parseArg` on a token without `=`: the active binding of the enclosing collection,
the reserved-name registry not being asked. -/
theorem parseArg_bare (B : String → Bool) (t : String) (f : ProcessNonConstantVariableFunc)
    (c : Collection) (h : equalsSign ∉ t.data) :
    parseArg B t f c =
      if (c.GetActive t).2 = true then (t, (c.GetActive t).1, none)
      else ("", "", some (.Errorf ("value not specified for build arg " ++ t ++
        " and no value can be inferred"))) := by
  unfold parseArg
  simp only [SplitN_bare t h]
  by_cases hc : (c.GetActive t).2 = true
  · simp [hc]
  · simp [hc]

/-- `parseArg` on a token `name=value`: the reserved check, the collection not being
asked. -/
theorem parseArg_valued (B : String → Bool) (n v : String)
    (f : ProcessNonConstantVariableFunc) (c : Collection) (h : equalsSign ∉ n.data) :
    parseArg B (n ++ "=" ++ v) f c =
      if B n = true then
        ("", "", some (.Errorf ("value cannot be specified for built-in build arg " ++ n)))
      else (n, v, none) := by
  unfold parseArg
  simp only [SplitN_valued n v h]
  by_cases hb : B n = true
  · simp [hb]
  · simp [hb]

/-- One turn of the loop of `ParseArgs`, by the error `parseArg` returns. -/
theorem ParseArgsLoop_cons (B : String → Bool) (f : ProcessNonConstantVariableFunc)
    (c : Collection) (ret : Scope) (t : String) (rest : List String) :
    ParseArgsLoop B f c ret (t :: rest) =
      match (parseArg B t f c).2.2 with
      | some err => (none, some (.Wrapf err ("parse build arg " ++ t)))
      | none =>
        ParseArgsLoop B f c (ret.AddInactive (parseArg B t f c).1 (parseArg B t f c).2.1) rest := by
  rw [ParseArgsLoop]
  rcases hp : parseArg B t f c with ⟨name, value, _ | err⟩
  · rfl
  · rfl

theorem ParseArgs_singleton_ok (B : String → Bool) (f : ProcessNonConstantVariableFunc)
    (c : Collection) (t : String) :
    (ParseArgs B [t] f c).2 = none ↔ (parseArg B t f c).2.2 = none := by
  unfold ParseArgs
  rw [ParseArgsLoop_cons]
  cases hp : (parseArg B t f c).2.2 with
  | none => simp [ParseArgsLoop]
  | some err => simp

theorem ParseArgsLoop_shape (B : String → Bool) (f : ProcessNonConstantVariableFunc)
    (c : Collection) :
    ∀ (args : List String) (ret : Scope),
      (∃ sc, ParseArgsLoop B f c ret args = (some sc, none)) ∨
      (∃ e, ParseArgsLoop B f c ret args = (none, some e)) := by
  intro args
  induction args with
  | nil => intro ret; exact Or.inl ⟨ret, rfl⟩
  | cons a as ih =>
    intro ret
    rw [ParseArgsLoop_cons]
    cases hp : (parseArg B a f c).2.2 with
    | none => exact ih _
    | some err => exact Or.inr ⟨_, rfl⟩

theorem Succeeds_ParseArgs_iff (B : String → Bool) (f : ProcessNonConstantVariableFunc)
    (c : Collection) (args : List String) :
    Succeeds (ParseArgs B args f c) ↔ (ParseArgs B args f c).2 = none := by
  unfold Succeeds ParseArgs
  rcases ParseArgsLoop_shape B f c args NewScope with ⟨sc, h⟩ | ⟨e, h⟩
  · simp [h]
  · simp [h]

theorem ParseArgsLoop_ok_iff (B : String → Bool) (f : ProcessNonConstantVariableFunc)
    (c : Collection) :
    ∀ (args : List String) (ret : Scope),
      (ParseArgsLoop B f c ret args).2 = none ↔
        ∀ a ∈ args, (ParseArgs B [a] f c).2 = none := by
  intro args
  induction args with
  | nil => intro ret; simp [ParseArgsLoop]
  | cons a as ih =>
    intro ret
    rw [ParseArgsLoop_cons]
    cases hp : (parseArg B a f c).2.2 with
    | none =>
      have ha : (ParseArgs B [a] f c).2 = none := (ParseArgs_singleton_ok B f c a).2 hp
      simp only []
      rw [ih]
      simp [ha]
    | some err =>
      have ha : ¬ (ParseArgs B [a] f c).2 = none := by
        rw [ParseArgs_singleton_ok, hp]; simp
      simp [ha]

/-- Tokens that all resolve are skipped over by the loop of `ParseArgs`, which goes on
with the rest from some scope. -/
theorem ParseArgsLoop_append (B : String → Bool) (f : ProcessNonConstantVariableFunc)
    (c : Collection) :
    ∀ (pre : List String) (ret : Scope) (rest : List String),
      (∀ a ∈ pre, (ParseArgs B [a] f c).2 = none) →
      ∃ ret2, ParseArgsLoop B f c ret (pre ++ rest) = ParseArgsLoop B f c ret2 rest := by
  intro pre
  induction pre with
  | nil => intro ret rest _; exact ⟨ret, rfl⟩
  | cons a as ih =>
    intro ret rest h
    have ha := (ParseArgs_singleton_ok B f c a).1 (h a (by simp))
    have has : ∀ x ∈ as, (ParseArgs B [x] f c).2 = none := fun x hx => h x (by simp [hx])
    rw [List.cons_append, ParseArgsLoop_cons, ha]
    exact ih _ rest has

/-! ## Bare key/value pairs -/

theorem ParseEnvVarsLoop_eq (pkv : String → String × String × Bool) :
    ∀ (envVars : List String) (ret : Scope),
      ParseEnvVarsLoop pkv ret envVars =
        ⟨ret.bindings ++ envVars.map (fun e => ⟨(pkv e).1, (pkv e).2.1, true⟩)⟩ := by
  intro envVars
  induction envVars with
  | nil => intro ret; simp [ParseEnvVarsLoop]
  | cons a as ih =>
    intro ret
    rw [ParseEnvVarsLoop, ih]
    simp [Scope.AddActive]

/-- C3, as the code has it: for every list of entries and every key/value splitter,
`ParseEnvVars` returns no error and inserts exactly one active binding per entry, in
input order, with the key and the value the splitter returns for it; the splitter's
third result is not looked at, so an entry it reports as malformed is inserted like
any other. -/
theorem ParseEnvVars_inserts_every_entry (pkv : String → String × String × Bool)
    (envVars : List String) :
    ParseEnvVars pkv envVars =
      ⟨envVars.map (fun e => ⟨(pkv e).1, (pkv e).2.1, true⟩)⟩ := by
  unfold ParseEnvVars
  rw [ParseEnvVarsLoop_eq]
  simp [NewScope]

/-- C3 fails as worded: the splitter reports `malformed` as malformed, yet
`ParseEnvVars(["A=1", "malformed"])` holds a second binding next to `A`. -/
theorem ParseEnvVars_malformed_entry_is_bound :
    (ParseKeyValue "malformed").2.2 = false ∧
      ParseEnvVars ParseKeyValue ["A=1", "malformed"] =
        ⟨[⟨"A", "1", true⟩, ⟨"malformed", "", true⟩]⟩ ∧
      ParseEnvVars ParseKeyValue ["A=1", "malformed"] ≠ ⟨[⟨"A", "1", true⟩]⟩ := by
  decide

/-! ## Command-line arguments -/

/-- C4: for every token list, every environment and every reserved name `n`, when the
first token that does not resolve has name `n`, `ParseCommandLineArgs` fails with the
error `built-in arg n cannot be passed on the command line`, whether or not the token
carries a value and whether or not `n` is set in the environment. -/
theorem ParseCommandLineArgs_reserved_name (B : String → Bool) (E : String → String × Bool)
    (pre post : List String) (t : String)
    (hpre : ∀ a ∈ pre, Succeeds (ParseCommandLineArgs B E [a]))
    (hres : B (tokenName t) = true) :
    ParseCommandLineArgs B E (pre ++ t :: post) =
      (none, some (.Errorf
        ("built-in arg " ++ tokenName t ++ " cannot be passed on the command line"))) := by
  have hpre2 : ∀ a ∈ pre, (ParseCommandLineArgs B E [a]).2 = none :=
    fun a ha => (Succeeds_ParseCommandLineArgs_iff B E [a]).1 (hpre a ha)
  unfold ParseCommandLineArgs
  rw [ParseCommandLineArgsLoop_append B E pre NewScope (t :: post) hpre2]
  rcases token_cases t with h | ⟨n, v, h, rfl⟩
  · rw [tokenName_bare t h] at hres ⊢
    rw [ParseCommandLineArgsLoop_bare B E _ t post h, if_pos hres]
  · rw [tokenName_valued n v h] at hres ⊢
    rw [ParseCommandLineArgsLoop_valued B E _ n v post h, if_pos hres]

/-- C4 at a reserved token that carries a value, after two tokens that resolve. -/
theorem ParseCommandLineArgs_reserved_name_witness :
    ParseCommandLineArgs reservesReserved envFoo (["FOO=bar", "FOO"] ++ "RESERVED=x" :: ["Z"]) =
      (none, some (.Errorf
        ("built-in arg " ++ tokenName "RESERVED=x" ++
          " cannot be passed on the command line"))) :=
  ParseCommandLineArgs_reserved_name reservesReserved envFoo ["FOO=bar", "FOO"] ["Z"]
    "RESERVED=x" (by decide) (by decide)

/-- C6: for every token `t` without `=` whose name is not reserved,
`ParseCommandLineArgs([t])` asks the environment for `t`: set to `v` (the empty string
included), the call succeeds with the single inactive binding `(t, v)`; not set, it
fails with `env var t not set` and returns no scope. -/
theorem ParseCommandLineArgs_bare_token (B : String → Bool) (E : String → String × Bool)
    (t : String) (h : equalsSign ∉ t.data) (hb : B (tokenName t) = false) :
    (∀ v, E t = (v, true) →
      ParseCommandLineArgs B E [t] = (some ⟨[⟨t, v, false⟩]⟩, none)) ∧
    ((E t).2 = false →
      ParseCommandLineArgs B E [t] = (none, some (.Errorf ("env var " ++ t ++ " not set")))) := by
  rw [tokenName_bare t h] at hb
  unfold ParseCommandLineArgs
  rw [ParseCommandLineArgsLoop_bare B E NewScope t [] h]
  constructor
  · intro v hv
    simp [hb, hv, ParseCommandLineArgsLoop, Scope.AddInactive, NewScope]
  · intro hv
    simp [hb, hv]

/-- C6 at `FOO`, once set to the empty string and once not set. -/
theorem ParseCommandLineArgs_bare_token_witness :
    ParseCommandLineArgs reservesNothing (fun _ => ("", true)) ["FOO"] =
        (some ⟨[⟨"FOO", "", false⟩]⟩, none) ∧
      ParseCommandLineArgs reservesNothing (fun _ => ("", false)) ["FOO"] =
        (none, some (.Errorf ("env var " ++ "FOO" ++ " not set"))) :=
  ⟨(ParseCommandLineArgs_bare_token reservesNothing (fun _ => ("", true)) "FOO"
      (by decide) rfl).1 "" rfl,
   (ParseCommandLineArgs_bare_token reservesNothing (fun _ => ("", false)) "FOO"
      (by decide) rfl).2 rfl⟩

/-- C8: for every list of tokens that each contain `=` and whose names are all
non-reserved, `ParseCommandLineArgs` succeeds and inserts, one per token and in input
order, the inactive binding of the text before the token's first `=` to the text after
it; the result is the same under every environment. -/
theorem ParseCommandLineArgs_valued_tokens (B : String → Bool) (E : String → String × Bool)
    (args : List String)
    (h : ∀ t ∈ args, equalsSign ∈ t.data ∧ B (tokenName t) = false) :
    ParseCommandLineArgs B E args =
        (some ⟨args.map (fun t => ⟨tokenName t, tokenValue t, false⟩)⟩, none) ∧
      ∀ E2 : String → String × Bool,
        ParseCommandLineArgs B E2 args = ParseCommandLineArgs B E args := by
  have main : ∀ E1 : String → String × Bool, ParseCommandLineArgs B E1 args =
      (some ⟨args.map (fun t => ⟨tokenName t, tokenValue t, false⟩)⟩, none) := by
    intro E1
    have hok : ∀ a ∈ args, (ParseCommandLineArgs B E1 [a]).2 = none :=
      fun a ha => (ParseCommandLineArgs_singleton_ok B E1 a).2 ⟨(h a ha).2, Or.inl (h a ha).1⟩
    have := ParseCommandLineArgsLoop_append B E1 args NewScope [] hok
    rw [List.append_nil] at this
    unfold ParseCommandLineArgs
    rw [this, ParseCommandLineArgsLoop]
    have hmap : args.map (fun t => (⟨tokenName t,
          if equalsSign ∈ t.data then tokenValue t else (E1 (tokenName t)).1, false⟩ : Binding)) =
        args.map (fun t => ⟨tokenName t, tokenValue t, false⟩) := by
      apply List.map_congr_left
      intro a ha
      rw [if_pos (h a ha).1]
    rw [hmap]
    simp [NewScope]
  exact ⟨main E, fun E2 => by rw [main E2, main E]⟩

/-- C8 at three tokens, one with a second `=` and one with an empty value. -/
theorem ParseCommandLineArgs_valued_tokens_witness :
    ParseCommandLineArgs reservesReserved envFoo ["FOO=bar", "X=a=b", "Y="] =
        (some ⟨["FOO=bar", "X=a=b", "Y="].map
          (fun t => ⟨tokenName t, tokenValue t, false⟩)⟩, none) :=
  (ParseCommandLineArgs_valued_tokens reservesReserved envFoo ["FOO=bar", "X=a=b", "Y="]
    (by decide)).1

/-! ## Build-step arguments -/

/-- C5: for every reserved name `n` (a name is what stands before a token's first `=`,
so it holds no `=`), every value `v` and every collection, `parseArg` on the token `n=v`
fails with `value cannot be specified for built-in build arg n`, also when the
collection has an active binding for `n`, and `ParseArgs` returns that error wrapped
with the token; on the bare token `n` the registry plays no role: with any other
registry the result is the same, namely the active value of `n` in the collection when
there is one, and otherwise the unresolvable-inheritance error. -/
theorem ParseArgs_reserved_name (B : String → Bool) (n v : String)
    (f : ProcessNonConstantVariableFunc) (c : Collection)
    (hn : equalsSign ∉ n.data) (hres : B n = true) :
    (parseArg B (n ++ "=" ++ v) f c =
        ("", "", some (.Errorf ("value cannot be specified for built-in build arg " ++ n))) ∧
      ParseArgs B [n ++ "=" ++ v] f c =
        (none, some (.Wrapf
          (.Errorf ("value cannot be specified for built-in build arg " ++ n))
          ("parse build arg " ++ (n ++ "=" ++ v))))) ∧
    ((∀ B2 : String → Bool, ParseArgs B2 [n] f c = ParseArgs B [n] f c) ∧
      (∀ w, c.GetActive n = (w, true) →
        ParseArgs B [n] f c = (some ⟨[⟨n, w, false⟩]⟩, none)) ∧
      ((c.GetActive n).2 = false →
        ParseArgs B [n] f c =
          (none, some (.Wrapf
            (.Errorf ("value not specified for build arg " ++ n ++
              " and no value can be inferred"))
            ("parse build arg " ++ n))))) := by
  have hv := parseArg_valued B n v f c hn
  rw [if_pos hres] at hv
  have hbare : ∀ B1 : String → Bool, ParseArgs B1 [n] f c =
      if (c.GetActive n).2 = true then (some ⟨[⟨n, (c.GetActive n).1, false⟩]⟩, none)
      else (none, some (.Wrapf
        (.Errorf ("value not specified for build arg " ++ n ++ " and no value can be inferred"))
        ("parse build arg " ++ n))) := by
    intro B1
    unfold ParseArgs
    rw [ParseArgsLoop_cons, parseArg_bare B1 n f c hn]
    by_cases hc : (c.GetActive n).2 = true
    · simp [hc, ParseArgsLoop, Scope.AddInactive, NewScope]
    · simp [hc]
  refine ⟨⟨hv, ?_⟩, fun B2 => by rw [hbare B2, hbare B], ?_, ?_⟩
  · unfold ParseArgs
    rw [ParseArgsLoop_cons, hv]
  · intro w hw
    rw [hbare B, hw]
    simp
  · intro hw
    rw [hbare B, hw]
    simp

/-- C5 at the reserved name `RESERVED`: with a value the reserved-name error, wrapped by
`ParseArgs`; bare, the unresolvable-inheritance error in a collection without a binding
for it and its active value in a collection that has one. -/
theorem ParseArgs_reserved_name_witness :
    (parseArg reservesReserved ("RESERVED" ++ "=" ++ "x") noCallback collectionFoo =
        ("", "", some (.Errorf
          ("value cannot be specified for built-in build arg " ++ "RESERVED"))) ∧
      ParseArgs reservesReserved ["RESERVED" ++ "=" ++ "x"] noCallback collectionFoo =
        (none, some (.Wrapf
          (.Errorf ("value cannot be specified for built-in build arg " ++ "RESERVED"))
          ("parse build arg " ++ ("RESERVED" ++ "=" ++ "x"))))) ∧
      ParseArgs reservesReserved ["RESERVED"] noCallback collectionFoo =
        (none, some (.Wrapf
          (.Errorf ("value not specified for build arg " ++ "RESERVED" ++
            " and no value can be inferred"))
          ("parse build arg " ++ "RESERVED"))) ∧
      ParseArgs reservesReserved ["RESERVED"] noCallback ⟨fun _ => ("1.0", true)⟩ =
        (some ⟨[⟨"RESERVED", "1.0", false⟩]⟩, none) :=
  ⟨(ParseArgs_reserved_name reservesReserved "RESERVED" "x" noCallback collectionFoo
      (by decide) (by decide)).1,
   (ParseArgs_reserved_name reservesReserved "RESERVED" "x" noCallback collectionFoo
      (by decide) (by decide)).2.2.2 (by decide),
   (ParseArgs_reserved_name reservesReserved "RESERVED" "x" noCallback
      ⟨fun _ => ("1.0", true)⟩ (by decide) (by decide)).2.2.1 "1.0" rfl⟩

/-- C7: for every token `t` without `=` and every collection `c`,
`ParseArgs([t], _, c)` succeeds with the single inactive binding `(t, v)` when the
active lookup of `t` in `c` returns `(v, true)`, and fails with `value not specified
for build arg t and no value can be inferred`, wrapped as `parse build arg t`, when the
lookup reports not found. -/
theorem ParseArgs_bare_token (B : String → Bool) (t : String)
    (f : ProcessNonConstantVariableFunc) (c : Collection) (h : equalsSign ∉ t.data) :
    (∀ v, c.GetActive t = (v, true) →
      ParseArgs B [t] f c = (some ⟨[⟨t, v, false⟩]⟩, none)) ∧
    ((c.GetActive t).2 = false →
      ParseArgs B [t] f c =
          (none, some (.Wrapf
            (.Errorf ("value not specified for build arg " ++ t ++
              " and no value can be inferred"))
            ("parse build arg " ++ t))) ∧
        (ParseArgs B [t] f c).2.map Error.message =
          some ("parse build arg " ++ t ++ ": " ++ ("value not specified for build arg " ++ t ++
            " and no value can be inferred"))) := by
  unfold ParseArgs
  rw [ParseArgsLoop_cons, parseArg_bare B t f c h]
  constructor
  · intro v hv
    simp [hv, ParseArgsLoop, Scope.AddInactive, NewScope]
  · intro hv
    simp [hv, Error.message]

/-- C7 at `FOO`, bound to `baz` in the collection, and at `BAR`, not bound. -/
theorem ParseArgs_bare_token_witness :
    ParseArgs reservesReserved ["FOO"] noCallback collectionFoo =
        (some ⟨[⟨"FOO", "baz", false⟩]⟩, none) ∧
      (ParseArgs reservesReserved ["BAR"] noCallback collectionFoo).2.map Error.message =
        some ("parse build arg " ++ "BAR" ++ ": " ++ ("value not specified for build arg " ++
          "BAR" ++ " and no value can be inferred")) :=
  ⟨(ParseArgs_bare_token reservesReserved "FOO" noCallback collectionFoo (by decide)).1
      "baz" rfl,
   ((ParseArgs_bare_token reservesReserved "BAR" noCallback collectionFoo (by decide)).2
      rfl).2⟩

/-! ## Fail-fast propagation -/

/-- C9: `ParseCommandLineArgs` and `ParseArgs` are fail-fast.  Each succeeds if and only
if every token resolves on its own; and when `args = pre ++ [t] ++ post`, every token of
`pre` resolves and `t` does not, the call returns a nil scope together with the error of
`t`, which does not depend on `post`.  For `ParseArgs` the message of that error is
`parse build arg `, the whole token, a colon and a blank, then the cause. -/
theorem orchestrators_fail_fast (B : String → Bool) (E : String → String × Bool)
    (f : ProcessNonConstantVariableFunc) (c : Collection)
    (args pre post : List String) (t : String) :
    (Succeeds (ParseCommandLineArgs B E args) ↔
      ∀ a ∈ args, Succeeds (ParseCommandLineArgs B E [a])) ∧
    (Succeeds (ParseArgs B args f c) ↔ ∀ a ∈ args, Succeeds (ParseArgs B [a] f c)) ∧
    ((∀ a ∈ pre, Succeeds (ParseCommandLineArgs B E [a])) →
      ¬ Succeeds (ParseCommandLineArgs B E [t]) →
      ∃ err, ParseCommandLineArgs B E [t] = (none, some err) ∧
        ParseCommandLineArgs B E (pre ++ [t] ++ post) = (none, some err)) ∧
    ((∀ a ∈ pre, Succeeds (ParseArgs B [a] f c)) →
      ¬ Succeeds (ParseArgs B [t] f c) →
      ∃ cause, (parseArg B t f c).2.2 = some cause ∧
        ParseArgs B [t] f c = (none, some (.Wrapf cause ("parse build arg " ++ t))) ∧
        ParseArgs B (pre ++ [t] ++ post) f c =
          (none, some (.Wrapf cause ("parse build arg " ++ t))) ∧
        (ParseArgs B (pre ++ [t] ++ post) f c).2.map Error.message =
          some ("parse build arg " ++ t ++ ": " ++ cause.message)) := by
  refine ⟨?_, ?_, ?_, ?_⟩
  · rw [Succeeds_ParseCommandLineArgs_iff]
    unfold ParseCommandLineArgs
    rw [ParseCommandLineArgsLoop_ok_iff]
    exact forall₂_congr fun a _ => (Succeeds_ParseCommandLineArgs_iff B E [a]).symm
  · rw [Succeeds_ParseArgs_iff]
    unfold ParseArgs
    rw [ParseArgsLoop_ok_iff]
    exact forall₂_congr fun a _ => (Succeeds_ParseArgs_iff B f c [a]).symm
  · intro hpre ht
    have hpre2 : ∀ a ∈ pre, (ParseCommandLineArgs B E [a]).2 = none :=
      fun a ha => (Succeeds_ParseCommandLineArgs_iff B E [a]).1 (hpre a ha)
    have ht2 : ¬ (ParseCommandLineArgs B E [t]).2 = none :=
      fun h => ht ((Succeeds_ParseCommandLineArgs_iff B E [t]).2 h)
    rcases ParseCommandLineArgsLoop_shape B E [t] NewScope with ⟨sc, h⟩ | ⟨e, h⟩
    · exact absurd (by unfold ParseCommandLineArgs; rw [h]) ht2
    · have h1 : ParseCommandLineArgs B E [t] = (none, some e) := h
      refine ⟨e, h1, ?_⟩
      have happ : pre ++ [t] ++ post = pre ++ t :: post := by simp
      rw [happ]
      unfold ParseCommandLineArgs
      rw [ParseCommandLineArgsLoop_append B E pre NewScope (t :: post) hpre2,
        ParseCommandLineArgsLoop_cons, if_neg ht2, h1]
  · intro hpre ht
    have hpre2 : ∀ a ∈ pre, (ParseArgs B [a] f c).2 = none :=
      fun a ha => (Succeeds_ParseArgs_iff B f c [a]).1 (hpre a ha)
    have ht2 : ¬ (parseArg B t f c).2.2 = none :=
      fun h => ht ((Succeeds_ParseArgs_iff B f c [t]).2
        ((ParseArgs_singleton_ok B f c t).2 h))
    obtain ⟨cause, hcause⟩ := Option.ne_none_iff_exists'.1 ht2
    have hone : ∀ (ret : Scope) (rest : List String), ParseArgsLoop B f c ret (t :: rest) =
        (none, some (.Wrapf cause ("parse build arg " ++ t))) := by
      intro ret rest
      rw [ParseArgsLoop_cons, hcause]
    have hall : ParseArgs B (pre ++ [t] ++ post) f c =
        (none, some (.Wrapf cause ("parse build arg " ++ t))) := by
      have happ : pre ++ [t] ++ post = pre ++ t :: post := by simp
      rw [happ]
      unfold ParseArgs
      obtain ⟨ret2, h2⟩ := ParseArgsLoop_append B f c pre NewScope (t :: post) hpre2
      rw [h2, hone]
    refine ⟨cause, hcause, hone NewScope [], hall, ?_⟩
    rw [hall]
    simp [Error.message]

/-- C9 at a list whose third token is not set in the environment, and at a list whose
second token has a reserved name and a value. -/
theorem orchestrators_fail_fast_witness :
    (∃ err, ParseCommandLineArgs reservesReserved envFoo ["Z"] = (none, some err) ∧
      ParseCommandLineArgs reservesReserved envFoo (["FOO=bar", "FOO"] ++ ["Z"] ++ ["Y=1"]) =
        (none, some err)) ∧
    (∃ cause, (parseArg reservesReserved "RESERVED=x" noCallback collectionFoo).2.2 = some cause ∧
      ParseArgs reservesReserved ["RESERVED=x"] noCallback collectionFoo =
        (none, some (.Wrapf cause ("parse build arg " ++ "RESERVED=x"))) ∧
      ParseArgs reservesReserved (["FOO"] ++ ["RESERVED=x"] ++ ["BAR"]) noCallback collectionFoo =
        (none, some (.Wrapf cause ("parse build arg " ++ "RESERVED=x"))) ∧
      (ParseArgs reservesReserved (["FOO"] ++ ["RESERVED=x"] ++ ["BAR"]) noCallback
          collectionFoo).2.map Error.message =
        some ("parse build arg " ++ "RESERVED=x" ++ ": " ++ cause.message)) :=
  ⟨(orchestrators_fail_fast reservesReserved envFoo noCallback collectionFoo []
      ["FOO=bar", "FOO"] ["Y=1"] "Z").2.2.1 (by decide) (by decide),
   (orchestrators_fail_fast reservesReserved envFoo noCallback collectionFoo []
      ["FOO"] ["BAR"] "RESERVED=x").2.2.2 (by decide) (by decide)⟩

/-! ## The splitter -/

/-- C10: the token splitter of `parseArg` and `ParseCommandLineArgs` splits at the first
`=` only.  For a token with `=`, the split gives a name without `=` and a value with
`name ++ "=" ++ value` the token, and that value is used without any lookup (also when it
is empty, as for `FOO=`); for a token without `=`, the name is the whole token and no
value is present, so the value comes from the collection or the environment. -/
theorem splitter_first_equals (t : String) :
    (equalsSign ∈ t.data →
      ∃ name value, SplitN t equalsSign 2 = [name, value] ∧
        equalsSign ∉ name.data ∧ name ++ "=" ++ value = t ∧
        (∀ (B : String → Bool) (f : ProcessNonConstantVariableFunc) (c : Collection),
          B name = false → parseArg B t f c = (name, value, none)) ∧
        (∀ (B : String → Bool) (E : String → String × Bool),
          B name = false →
          ParseCommandLineArgs B E [t] = (some ⟨[⟨name, value, false⟩]⟩, none))) ∧
    (equalsSign ∉ t.data →
      SplitN t equalsSign 2 = [t] ∧
        (∀ (B : String → Bool) (f : ProcessNonConstantVariableFunc) (c : Collection),
          parseArg B t f c =
            if (c.GetActive t).2 = true then (t, (c.GetActive t).1, none)
            else ("", "", some (.Errorf ("value not specified for build arg " ++ t ++
              " and no value can be inferred")))) ∧
        (∀ (B : String → Bool) (E : String → String × Bool),
          B t = false →
          ParseCommandLineArgs B E [t] =
            if (E t).2 = true then (some ⟨[⟨t, (E t).1, false⟩]⟩, none)
            else (none, some (.Errorf ("env var " ++ t ++ " not set"))))) := by
  constructor
  · intro h
    rcases token_cases t with h0 | ⟨n, v, hn, rfl⟩
    · exact absurd h h0
    · refine ⟨n, v, SplitN_valued n v hn, hn, rfl, ?_, ?_⟩
      · intro B f c hb
        rw [parseArg_valued B n v f c hn]
        simp [hb]
      · intro B E hb
        unfold ParseCommandLineArgs
        rw [ParseCommandLineArgsLoop_valued B E NewScope n v [] hn]
        simp [hb, ParseCommandLineArgsLoop, Scope.AddInactive, NewScope]
  · intro h
    refine ⟨SplitN_bare t h, fun B f c => parseArg_bare B t f c h, ?_⟩
    intro B E hb
    unfold ParseCommandLineArgs
    rw [ParseCommandLineArgsLoop_bare B E NewScope t [] h]
    by_cases he : (E t).2 = true
    · simp [hb, he, ParseCommandLineArgsLoop, Scope.AddInactive, NewScope]
    · simp [hb, he]

/-- C10 at `FOO=`, a token with an explicit empty value, and at `FOO`, a token without
a value. -/
theorem splitter_first_equals_witness :
    (∃ name value, SplitN "FOO=" equalsSign 2 = [name, value] ∧
        equalsSign ∉ name.data ∧ name ++ "=" ++ value = "FOO=" ∧
        (∀ (B : String → Bool) (f : ProcessNonConstantVariableFunc) (c : Collection),
          B name = false → parseArg B "FOO=" f c = (name, value, none)) ∧
        (∀ (B : String → Bool) (E : String → String × Bool),
          B name = false →
          ParseCommandLineArgs B E ["FOO="] = (some ⟨[⟨name, value, false⟩]⟩, none))) ∧
      SplitN "FOO" equalsSign 2 = ["FOO"] :=
  ⟨(splitter_first_equals "FOO=").1 (by decide),
   ((splitter_first_equals "FOO").2 (by decide)).1⟩

/-! ## The activation callback -/

/-- C11: `ParseArgs` never invokes its activation callback: for every token list, every
collection and any two callbacks `f` and `g`, `ParseArgs(args, f, c)` and
`ParseArgs(args, g, c)` return the same scope and the same error. -/
theorem ParseArgs_ignores_callback (B : String → Bool) (args : List String)
    (f g : ProcessNonConstantVariableFunc) (c : Collection) :
    ParseArgs B args f c = ParseArgs B args g c := by
  have hone : ∀ t, parseArg B t f c = parseArg B t g c := fun _ => rfl
  have hloop : ∀ (l : List String) (ret : Scope),
      ParseArgsLoop B f c ret l = ParseArgsLoop B g c ret l := by
    intro l
    induction l with
    | nil => intro ret; rfl
    | cons a as ih =>
      intro ret
      rw [ParseArgsLoop_cons, ParseArgsLoop_cons, hone a]
      cases (parseArg B a g c).2.2 with
      | none => exact ih _
      | some err => rfl
  exact hloop args NewScope

/-! ## Activation state -/

theorem ParseCommandLineArgsLoop_inactive (B : String → Bool) (E : String → String × Bool) :
    ∀ (args : List String) (ret sc : Scope),
      (∀ b ∈ ret.bindings, b.active = false) →
      (ParseCommandLineArgsLoop B E ret args).1 = some sc →
      ∀ b ∈ sc.bindings, b.active = false := by
  intro args
  induction args with
  | nil =>
    intro ret sc hret h
    simp only [ParseCommandLineArgsLoop, Option.some.injEq] at h
    rw [← h]; exact hret
  | cons a as ih =>
    intro ret sc hret h
    rw [ParseCommandLineArgsLoop_cons] at h
    by_cases ha : (ParseCommandLineArgs B E [a]).2 = none
    · rw [if_pos ha] at h
      refine ih _ sc ?_ h
      intro b hb
      simp only [Scope.AddInactive, List.mem_append, List.mem_singleton] at hb
      rcases hb with hb | hb
      · exact hret b hb
      · rw [hb]
    · rw [if_neg ha] at h
      simp at h

theorem ParseArgsLoop_inactive (B : String → Bool) (f : ProcessNonConstantVariableFunc)
    (c : Collection) :
    ∀ (args : List String) (ret sc : Scope),
      (∀ b ∈ ret.bindings, b.active = false) →
      (ParseArgsLoop B f c ret args).1 = some sc →
      ∀ b ∈ sc.bindings, b.active = false := by
  intro args
  induction args with
  | nil =>
    intro ret sc hret h
    simp only [ParseArgsLoop, Option.some.injEq] at h
    rw [← h]; exact hret
  | cons a as ih =>
    intro ret sc hret h
    rw [ParseArgsLoop_cons] at h
    cases hp : (parseArg B a f c).2.2 with
    | none =>
      rw [hp] at h
      refine ih _ sc ?_ h
      intro b hb
      simp only [Scope.AddInactive, List.mem_append, List.mem_singleton] at hb
      rcases hb with hb | hb
      · exact hret b hb
      · rw [hb]
    | some err =>
      rw [hp] at h
      simp at h

/-- C15: activation state is uniform per orchestrator call: every binding of a scope
returned by `ParseCommandLineArgs` or `ParseArgs` was inserted as inactive, and every
binding of the scope returned by `ParseEnvVars` was inserted as active; no call mixes
the two. -/
theorem activation_state_uniform (B : String → Bool) (E : String → String × Bool)
    (f : ProcessNonConstantVariableFunc) (c : Collection)
    (pkv : String → String × String × Bool) (args : List String) :
    (∀ sc, (ParseCommandLineArgs B E args).1 = some sc → ∀ b ∈ sc.bindings, b.active = false) ∧
    (∀ sc, (ParseArgs B args f c).1 = some sc → ∀ b ∈ sc.bindings, b.active = false) ∧
    (∀ b ∈ (ParseEnvVars pkv args).bindings, b.active = true) := by
  refine ⟨?_, ?_, ?_⟩
  · intro sc h
    exact ParseCommandLineArgsLoop_inactive B E args NewScope sc (by simp [NewScope]) h
  · intro sc h
    exact ParseArgsLoop_inactive B f c args NewScope sc (by simp [NewScope]) h
  · intro b hb
    unfold ParseEnvVars at hb
    rw [ParseEnvVarsLoop_eq] at hb
    simp only [NewScope, List.nil_append, List.mem_map] at hb
    obtain ⟨e, _, rfl⟩ := hb
    rfl

/-- C15 at three tokens that resolve, on the command line, as build-step arguments and
as environment-style pairs. -/
theorem activation_state_uniform_witness :
    (ParseCommandLineArgs reservesReserved envFoo ["FOO=bar", "FOO", "Y="]).1 =
        some ⟨[⟨"FOO", "bar", false⟩, ⟨"FOO", "baz", false⟩, ⟨"Y", "", false⟩]⟩ ∧
      (∀ b ∈ ([⟨"FOO", "bar", false⟩, ⟨"FOO", "baz", false⟩, ⟨"Y", "", false⟩] : List Binding),
        b.active = false) ∧
      (ParseArgs reservesReserved ["FOO=bar", "FOO", "Y="] noCallback collectionFoo).1 =
        some ⟨[⟨"FOO", "bar", false⟩, ⟨"FOO", "baz", false⟩, ⟨"Y", "", false⟩]⟩ ∧
      (∀ b ∈ (⟨[⟨"FOO", "bar", false⟩, ⟨"FOO", "baz", false⟩, ⟨"Y", "", false⟩]⟩ : Scope).bindings,
        b.active = false) ∧
      (∀ b ∈ (ParseEnvVars ParseKeyValue ["FOO=bar", "FOO", "Y="]).bindings, b.active = true) :=
  ⟨by decide,
   (activation_state_uniform reservesReserved envFoo noCallback collectionFoo ParseKeyValue
      ["FOO=bar", "FOO", "Y="]).1 ⟨[⟨"FOO", "bar", false⟩, ⟨"FOO", "baz", false⟩,
        ⟨"Y", "", false⟩]⟩ (by decide),
   by decide,
   (activation_state_uniform reservesReserved envFoo noCallback collectionFoo ParseKeyValue
      ["FOO=bar", "FOO", "Y="]).2.1 ⟨[⟨"FOO", "bar", false⟩, ⟨"FOO", "baz", false⟩,
        ⟨"Y", "", false⟩]⟩ (by decide),
   (activation_state_uniform reservesReserved envFoo noCallback collectionFoo ParseKeyValue
      ["FOO=bar", "FOO", "Y="]).2.2⟩

/-! ## The defensive branch -/

/-- The predicate recognises the error of the defensive branch, whatever the parts
printed. -/
theorem isInvalidBuildArg_of_invalid (parts : List String) :
    isInvalidBuildArg (.Errorf ("invalid build arg " ++ formatSlice parts)) = true := by
  simp only [isInvalidBuildArg, String.data_append]
  exact List.isPrefixOf_iff_prefix.2 ⟨_, rfl⟩

/-- A message that starts with another character than `i` is not the one of the
defensive branch. -/
theorem isInvalidBuildArg_of_head (x : Char) (pre tail : String) (hx : pre.data.head? = some x)
    (hne : x ≠ Char.ofNat 105) : isInvalidBuildArg (.Errorf (pre ++ tail)) = false := by
  rw [isInvalidBuildArg, String.data_append]
  cases hp : pre.data with
  | nil => rw [hp] at hx; simp at hx
  | cons d ds =>
    rw [hp] at hx
    simp only [List.head?_cons, Option.some.injEq] at hx
    subst hx
    have hi : ("invalid build arg " : String).data =
        Char.ofNat 105 :: ("nvalid build arg " : String).data := by decide
    have hd : (Char.ofNat 105 == d) = false := by
      simp only [beq_eq_false_iff_ne, ne_eq]
      exact fun e => hne e.symm
    rw [hi, List.cons_append, List.isPrefixOf, hd]
    rfl

/-- The length of `SplitN(t, "=", 2)` is one or two. -/
theorem SplitN_length (t : String) :
    (SplitN t equalsSign 2).length = 1 ∨ (SplitN t equalsSign 2).length = 2 := by
  rcases token_cases t with h | ⟨n, v, h, rfl⟩
  · rw [SplitN_bare t h]; exact Or.inl rfl
  · rw [SplitN_valued n v h]; exact Or.inr rfl

theorem ParseCommandLineArgsLoop_not_invalid (B : String → Bool)
    (E : String → String × Bool) :
    ∀ (args : List String) (ret : Scope),
      returnsInvalidBuildArg (ParseCommandLineArgsLoop B E ret args) = false := by
  intro args
  induction args with
  | nil => intro ret; rfl
  | cons a as ih =>
    intro ret
    have hb : ∀ k : String, returnsInvalidBuildArg
        (none, some (.Errorf ("built-in arg " ++ k ++ " cannot be passed on the command line")))
          = false := by
      intro k
      simp only [returnsInvalidBuildArg, String.append_assoc]
      exact isInvalidBuildArg_of_head (Char.ofNat 98) _ _ (by decide) (by decide)
    have he : ∀ k : String, returnsInvalidBuildArg
        (none, some (.Errorf ("env var " ++ k ++ " not set"))) = false := by
      intro k
      simp only [returnsInvalidBuildArg, String.append_assoc]
      exact isInvalidBuildArg_of_head (Char.ofNat 101) _ _ (by decide) (by decide)
    rcases token_cases a with h | ⟨n, v, h, rfl⟩
    · rw [ParseCommandLineArgsLoop_bare B E ret a as h]
      by_cases h1 : B a = true
      · rw [if_pos h1]; exact hb a
      · rw [if_neg h1]
        by_cases h2 : (E a).2 = true
        · rw [if_pos h2]; exact ih _
        · rw [if_neg h2]; exact he a
    · rw [ParseCommandLineArgsLoop_valued B E ret n v as h]
      by_cases h1 : B n = true
      · rw [if_pos h1]; exact hb n
      · rw [if_neg h1]; exact ih _

theorem parseArg_not_invalid (B : String → Bool) (t : String)
    (f : ProcessNonConstantVariableFunc) (c : Collection) (err : Error)
    (h : (parseArg B t f c).2.2 = some err) : isInvalidBuildArg err = false := by
  rcases token_cases t with h0 | ⟨n, v, h0, rfl⟩
  · rw [parseArg_bare B t f c h0] at h
    by_cases h1 : (c.GetActive t).2 = true
    · rw [if_pos h1] at h; simp at h
    · rw [if_neg h1] at h
      simp only [Option.some.injEq] at h
      rw [← h, String.append_assoc]
      exact isInvalidBuildArg_of_head (Char.ofNat 118) _ _ (by decide) (by decide)
  · rw [parseArg_valued B n v f c h0] at h
    by_cases h1 : B n = true
    · rw [if_pos h1] at h
      simp only [Option.some.injEq] at h
      rw [← h]
      exact isInvalidBuildArg_of_head (Char.ofNat 118) _ _ (by decide) (by decide)
    · rw [if_neg h1] at h; simp at h

theorem ParseArgsLoop_not_invalid (B : String → Bool) (f : ProcessNonConstantVariableFunc)
    (c : Collection) :
    ∀ (args : List String) (ret : Scope),
      returnsInvalidBuildArg (ParseArgsLoop B f c ret args) = false := by
  intro args
  induction args with
  | nil => intro ret; rfl
  | cons a as ih =>
    intro ret
    rw [ParseArgsLoop_cons]
    cases hp : (parseArg B a f c).2.2 with
    | none => exact ih _
    | some err =>
      simp only [returnsInvalidBuildArg, isInvalidBuildArg]
      exact parseArg_not_invalid B a f c err hp

/-- C16: the defensive `invalid build arg` branch is unreachable: for every token, the
empty string included, splitting at `=` with a limit of 2 yields one or two parts, and
neither `ParseCommandLineArgs` nor `ParseArgs` returns the `invalid build arg` error for
any input. -/
theorem invalid_build_arg_unreachable (B : String → Bool) (E : String → String × Bool)
    (f : ProcessNonConstantVariableFunc) (c : Collection) (args : List String) (t : String) :
    ((SplitN t equalsSign 2).length = 1 ∨ (SplitN t equalsSign 2).length = 2) ∧
      (SplitN "" equalsSign 2).length = 1 ∧
      returnsInvalidBuildArg (ParseCommandLineArgs B E args) = false ∧
      returnsInvalidBuildArg (ParseArgs B args f c) = false ∧
      (∀ a, ∀ err, (parseArg B a f c).2.2 = some err → isInvalidBuildArg err = false) :=
  ⟨SplitN_length t, by decide, ParseCommandLineArgsLoop_not_invalid B E args NewScope,
    ParseArgsLoop_not_invalid B f c args NewScope,
    fun a err h => parseArg_not_invalid B a f c err h⟩

/-! ## Agreement of the two orchestrators on tokens with a value -/

theorem ParseCommandLineArgsLoop_all_valued (B : String → Bool) (E : String → String × Bool) :
    ∀ (args : List String) (ret : Scope),
      (∀ t ∈ args, equalsSign ∈ t.data ∧ B (tokenName t) = false) →
      ParseCommandLineArgsLoop B E ret args =
        (some ⟨ret.bindings ++ args.map (fun t => ⟨tokenName t, tokenValue t, false⟩)⟩, none) := by
  intro args
  induction args with
  | nil => intro ret _; simp [ParseCommandLineArgsLoop]
  | cons a as ih =>
    intro ret h
    have ha := h a (by simp)
    have has : ∀ t ∈ as, equalsSign ∈ t.data ∧ B (tokenName t) = false :=
      fun t ht => h t (by simp [ht])
    rcases token_cases a with h0 | ⟨n, v, h0, rfl⟩
    · exact absurd ha.1 h0
    · have hb := ha.2
      rw [tokenName_valued n v h0] at hb
      rw [ParseCommandLineArgsLoop_valued B E ret n v as h0, if_neg (by simp [hb]), ih _ has,
        List.map_cons, tokenName_valued n v h0, tokenValue_valued n v h0]
      simp [Scope.AddInactive]

theorem ParseArgsLoop_all_valued (B : String → Bool) (f : ProcessNonConstantVariableFunc)
    (c : Collection) :
    ∀ (args : List String) (ret : Scope),
      (∀ t ∈ args, equalsSign ∈ t.data ∧ B (tokenName t) = false) →
      ParseArgsLoop B f c ret args =
        (some ⟨ret.bindings ++ args.map (fun t => ⟨tokenName t, tokenValue t, false⟩)⟩, none) := by
  intro args
  induction args with
  | nil => intro ret _; simp [ParseArgsLoop]
  | cons a as ih =>
    intro ret h
    have ha := h a (by simp)
    have has : ∀ t ∈ as, equalsSign ∈ t.data ∧ B (tokenName t) = false :=
      fun t ht => h t (by simp [ht])
    rcases token_cases a with h0 | ⟨n, v, h0, rfl⟩
    · exact absurd ha.1 h0
    · have hb := ha.2
      rw [tokenName_valued n v h0] at hb
      rw [ParseArgsLoop_cons, parseArg_valued B n v f c h0, if_neg (by simp [hb])]
      simp only []
      rw [ih _ has, List.map_cons, tokenName_valued n v h0, tokenValue_valued n v h0]
      simp [Scope.AddInactive]

/-- On a token with `=`, `parseArg` returns no error exactly when the name is not
reserved. -/
theorem parseArg_ok_of_valued (B : String → Bool) (t : String)
    (f : ProcessNonConstantVariableFunc) (c : Collection) (h : equalsSign ∈ t.data) :
    (parseArg B t f c).2.2 = none ↔ B (tokenName t) = false := by
  rcases token_cases t with h0 | ⟨n, v, h0, rfl⟩
  · exact absurd h h0
  · rw [parseArg_valued B n v f c h0, tokenName_valued n v h0]
    by_cases hb : B n = true
    · simp [hb]
    · simp [hb]

theorem Fails_ParseCommandLineArgs_iff (B : String → Bool) (E : String → String × Bool)
    (args : List String) :
    Fails (ParseCommandLineArgs B E args) ↔ ¬ (ParseCommandLineArgs B E args).2 = none := by
  unfold Fails ParseCommandLineArgs
  rcases ParseCommandLineArgsLoop_shape B E args NewScope with ⟨sc, h⟩ | ⟨e, h⟩
  · simp [h]
  · simp [h]

theorem Fails_ParseArgs_iff (B : String → Bool) (f : ProcessNonConstantVariableFunc)
    (c : Collection) (args : List String) :
    Fails (ParseArgs B args f c) ↔ ¬ (ParseArgs B args f c).2 = none := by
  unfold Fails ParseArgs
  rcases ParseArgsLoop_shape B f c args NewScope with ⟨sc, h⟩ | ⟨e, h⟩
  · simp [h]
  · simp [h]

/-- C19: on token lists in which every token contains `=`, the two orchestrators agree:
each of them fails exactly when some token's name is reserved, and when none is, both
succeed with the same sequence of inactive insertions, the text before each token's
first `=` bound to the text after it. -/
theorem orchestrators_agree_on_valued_tokens (B : String → Bool) (E : String → String × Bool)
    (f : ProcessNonConstantVariableFunc) (c : Collection) (args : List String)
    (h : ∀ t ∈ args, equalsSign ∈ t.data) :
    (Fails (ParseCommandLineArgs B E args) ↔ ∃ t ∈ args, B (tokenName t) = true) ∧
    (Fails (ParseArgs B args f c) ↔ ∃ t ∈ args, B (tokenName t) = true) ∧
    ((∀ t ∈ args, B (tokenName t) = false) →
      ParseCommandLineArgs B E args =
          (some ⟨args.map (fun t => ⟨tokenName t, tokenValue t, false⟩)⟩, none) ∧
        ParseArgs B args f c = ParseCommandLineArgs B E args) := by
  have hex : (¬ ∀ a ∈ args, B (tokenName a) = false) ↔ ∃ t ∈ args, B (tokenName t) = true := by
    simp
  refine ⟨?_, ?_, ?_⟩
  · rw [Fails_ParseCommandLineArgs_iff, ← hex]
    apply not_congr
    unfold ParseCommandLineArgs
    rw [ParseCommandLineArgsLoop_ok_iff]
    apply forall₂_congr
    intro a ha
    rw [ParseCommandLineArgs_singleton_ok]
    exact ⟨fun x => x.1, fun x => ⟨x, Or.inl (h a ha)⟩⟩
  · rw [Fails_ParseArgs_iff, ← hex]
    apply not_congr
    unfold ParseArgs
    rw [ParseArgsLoop_ok_iff]
    apply forall₂_congr
    intro a ha
    rw [ParseArgs_singleton_ok, parseArg_ok_of_valued B a f c (h a ha)]
  · intro hb
    have hall : ∀ t ∈ args, equalsSign ∈ t.data ∧ B (tokenName t) = false :=
      fun t ht => ⟨h t ht, hb t ht⟩
    have h1 := ParseCommandLineArgsLoop_all_valued B E args NewScope hall
    have h2 := ParseArgsLoop_all_valued B f c args NewScope hall
    simp only [NewScope, List.nil_append] at h1 h2
    unfold ParseArgs ParseCommandLineArgs
    simp only [NewScope]
    rw [h1, h2]
    exact ⟨rfl, rfl⟩

/-- C19 at a list without a reserved name, where both calls give the same scope, and at
a list with one, where both fail. -/
theorem orchestrators_agree_on_valued_tokens_witness :
    ParseArgs reservesReserved ["FOO=bar", "X=a=b"] failingCallback collectionFoo =
        ParseCommandLineArgs reservesReserved envFoo ["FOO=bar", "X=a=b"] ∧
      Fails (ParseCommandLineArgs reservesReserved envFoo ["FOO=bar", "RESERVED=x"]) ∧
      Fails (ParseArgs reservesReserved ["FOO=bar", "RESERVED=x"] failingCallback collectionFoo) :=
  ⟨((orchestrators_agree_on_valued_tokens reservesReserved envFoo failingCallback collectionFoo
      ["FOO=bar", "X=a=b"] (by decide)).2.2 (by decide)).2,
   (orchestrators_agree_on_valued_tokens reservesReserved envFoo failingCallback collectionFoo
      ["FOO=bar", "RESERVED=x"] (by decide)).1.2 ⟨"RESERVED=x", by decide, by decide⟩,
   (orchestrators_agree_on_valued_tokens reservesReserved envFoo failingCallback collectionFoo
      ["FOO=bar", "RESERVED=x"] (by decide)).2.1.2 ⟨"RESERVED=x", by decide, by decide⟩⟩

/-! ## The scanner on concatenations -/

/-- A true answer of the loop comes from a `$(` among the characters still to be read,
or from a remembered `$` and a `(` read next. -/
theorem ContainsShellLoop_true_pair :
    ∀ (cs : List Char) (e q : Bool) (l : Char),
      ContainsShellLoop e q l cs = true →
      (l = dollar ∧ cs.head? = some openParen) ∨ [dollar, openParen] <:+: cs := by
  intro cs
  induction cs with
  | nil => intro e q l h; simp [ContainsShellLoop] at h
  | cons c cs ih =>
    intro e q l h
    have hnul : ¬ (Char.ofNat 0 = dollar) := by decide
    have later : ∀ (e2 q2 : Bool), ContainsShellLoop e2 q2 (Char.ofNat 0) cs = true →
        [dollar, openParen] <:+: c :: cs := by
      intro e2 q2 h2
      rcases ih e2 q2 _ h2 with ⟨h3, _⟩ | h3
      · exact absurd h3 hnul
      · exact h3.trans (List.suffix_cons c cs).isInfix
    rw [ContainsShellLoop] at h
    by_cases h1 : e = true
    · rw [if_pos h1] at h
      exact Or.inr (later _ _ h)
    · rw [if_neg h1] at h
      by_cases h2 : c = backslash
      · rw [if_pos h2] at h
        exact Or.inr (later _ _ h)
      · rw [if_neg h2] at h
        by_cases h3 : c = singleQuote
        · rw [if_pos h3] at h
          exact Or.inr (later _ _ h)
        · rw [if_neg h3] at h
          by_cases h4 : l = dollar ∧ c = openParen ∧ q = false
          · exact Or.inl ⟨h4.1, by simp [h4.2.1]⟩
          · rw [if_neg h4] at h
            rcases ih e q c h with ⟨h5, h6⟩ | h5
            · refine Or.inr ⟨[], cs.tail, ?_⟩
              cases cs with
              | nil => simp at h6
              | cons d ds =>
                simp only [List.head?_cons, Option.some.injEq] at h6
                simp [h5, h6]
            · exact Or.inr (h5.trans (List.suffix_cons c cs).isInfix)

/-- Reading characters that are neither backslashes nor single quotes, inside a quoted
span or without meeting a `$(`, only moves `last`. -/
theorem ContainsShellLoop_plain (q : Bool) (rest : List Char) :
    ∀ (a : List Char) (l : Char),
      (∀ c ∈ a, c ≠ backslash ∧ c ≠ singleQuote) →
      (q = true ∨ ¬ [dollar, openParen] <:+: l :: a) →
      ContainsShellLoop false q l (a ++ rest) = ContainsShellLoop false q (a.getLastD l) rest := by
  intro a
  induction a with
  | nil => intro l _ _; rfl
  | cons c cs ih =>
    intro l ha hq
    have hc := ha c (by simp)
    have hcs : ∀ x ∈ cs, x ≠ backslash ∧ x ≠ singleQuote := fun x hx => ha x (by simp [hx])
    have hno : ¬ (l = dollar ∧ c = openParen ∧ q = false) := by
      rintro ⟨h1, h2, h3⟩
      rcases hq with hq | hq
      · rw [h3] at hq; exact absurd hq (by simp)
      · exact hq ⟨[], cs, by simp [h1, h2]⟩
    have hq2 : q = true ∨ ¬ [dollar, openParen] <:+: c :: cs := by
      rcases hq with hq | hq
      · exact Or.inl hq
      · exact Or.inr fun h => hq (h.trans (List.suffix_cons l (c :: cs)).isInfix)
    rw [List.cons_append, ContainsShellLoop, if_neg (by simp), if_neg hc.1, if_neg hc.2,
      if_neg hno, ih c hcs hq2, List.getLastD_cons]

/-- A backslash and the character after it are consumed together and clear `last`. -/
theorem ContainsShellLoop_escape (q : Bool) (l c : Char) (rest : List Char) :
    ContainsShellLoop false q l (backslash :: c :: rest) =
      ContainsShellLoop false q (Char.ofNat 0) rest := by
  rw [ContainsShellLoop, if_neg (by simp), if_pos rfl, ContainsShellLoop, if_pos rfl]

/-- An even number of backslashes leaves the loop unescaped. -/
theorem ContainsShellLoop_backslashes (q : Bool) (rest : List Char) :
    ∀ (k : Nat) (l : Char), ∃ l2,
      ContainsShellLoop false q l (List.replicate (2 * k) backslash ++ rest) =
        ContainsShellLoop false q l2 rest := by
  intro k
  induction k with
  | zero => intro l; exact ⟨l, rfl⟩
  | succ k ih =>
    intro l
    obtain ⟨l2, h2⟩ := ih (Char.ofNat 0)
    refine ⟨l2, ?_⟩
    have : 2 * (k + 1) = (2 * k + 1) + 1 := by ring
    rw [this, List.replicate_succ, List.replicate_succ, List.cons_append, List.cons_append,
      ContainsShellLoop_escape, h2]

/-- A single quote read unescaped toggles the quote state and clears `last`. -/
theorem ContainsShellLoop_quote (q : Bool) (l : Char) (rest : List Char) :
    ContainsShellLoop false q l (singleQuote :: rest) =
      ContainsShellLoop false (!q) (Char.ofNat 0) rest := by
  have hqb : ¬ singleQuote = backslash := by decide
  rw [ContainsShellLoop, if_neg (by simp), if_neg hqb, if_pos rfl]

/-- Inside a single-quoted span that is never closed the loop answers false. -/
theorem ContainsShellLoop_quoted :
    ∀ (r : List Char) (e : Bool) (l : Char),
      singleQuote ∉ r → ContainsShellLoop e true l r = false := by
  intro r
  induction r with
  | nil => intro e l _; rfl
  | cons c cs ih =>
    intro e l h
    have hc : ¬ c = singleQuote := fun x => h (by simp [x])
    have hcs : singleQuote ∉ cs := fun x => h (by simp [x])
    rw [ContainsShellLoop]
    by_cases h1 : e = true
    · rw [if_pos h1]; exact ih _ _ hcs
    · rw [if_neg h1]
      by_cases h2 : c = backslash
      · rw [if_pos h2]; exact ih _ _ hcs
      · rw [if_neg h2, if_neg hc, if_neg (by simp)]
        exact ih _ _ hcs

/-- A true answer of the loop is not changed by characters added at the end. -/
theorem ContainsShellLoop_append (t : List Char) :
    ∀ (s : List Char) (e q : Bool) (l : Char),
      ContainsShellLoop e q l s = true → ContainsShellLoop e q l (s ++ t) = true := by
  intro s
  induction s with
  | nil => intro e q l h; simp [ContainsShellLoop] at h
  | cons c cs ih =>
    intro e q l h
    rw [ContainsShellLoop] at h
    rw [List.cons_append, ContainsShellLoop]
    by_cases h1 : e = true
    · rw [if_pos h1] at h ⊢; exact ih _ _ _ h
    · rw [if_neg h1] at h ⊢
      by_cases h2 : c = backslash
      · rw [if_pos h2] at h ⊢; exact ih _ _ _ h
      · rw [if_neg h2] at h ⊢
        by_cases h3 : c = singleQuote
        · rw [if_pos h3] at h ⊢; exact ih _ _ _ h
        · rw [if_neg h3] at h ⊢
          by_cases h4 : l = dollar ∧ c = openParen ∧ q = false
          · rw [if_pos h4]
          · rw [if_neg h4] at h ⊢; exact ih _ _ _ h

theorem pair_data : ("$(" : String).data = [dollar, openParen] := by decide

theorem quote_data : ("'" : String).data = [singleQuote] := by decide

/-- No `$(` spans the start of the scan: the initial `last` is not a dollar sign. -/
theorem no_pair_after_start (a : List Char) (h : ¬ [dollar, openParen] <:+: a) :
    ¬ [dollar, openParen] <:+: Char.ofNat 0 :: a := by
  intro hi
  rcases List.infix_cons_iff.1 hi with hp | hp
  · obtain ⟨t, ht⟩ := hp
    have h0 : dollar = Char.ofNat 0 := by
      have := congrArg List.head? ht
      simpa using this
    exact absurd h0 (by decide)
  · exact h hp

/-- C12: for every prefix `a` without backslash, single quote or `$(`, every `n` and
every suffix `b` without `$(`, `ContainsShell` on `a`, `n` backslashes, `$(` and `b` is
true exactly when `n` is even. -/
theorem ContainsShell_backslash_parity (a b : String) (n : Nat)
    (ha1 : backslash ∉ a.data) (ha2 : singleQuote ∉ a.data)
    (ha3 : ¬ "$(".data <:+: a.data) (hb : ¬ "$(".data <:+: b.data) :
    ContainsShell (a ++ String.mk (List.replicate n backslash) ++ "$(" ++ b) = true ↔
      Even n := by
  rw [pair_data] at ha3 hb
  have hd : (a ++ String.mk (List.replicate n backslash) ++ "$(" ++ b).data =
      a.data ++ (List.replicate n backslash ++ dollar :: openParen :: b.data) := by
    simp only [String.data_append, pair_data, List.append_assoc]
    rfl
  have hplain : ∀ c ∈ a.data, c ≠ backslash ∧ c ≠ singleQuote :=
    fun c hc => ⟨fun e => ha1 (e ▸ hc), fun e => ha2 (e ▸ hc)⟩
  have hfire : ∀ l : Char,
      ContainsShellLoop false false l (dollar :: openParen :: b.data) = true := by
    intro l
    have h1 : ¬ dollar = backslash := by decide
    have h2 : ¬ dollar = singleQuote := by decide
    have h3 : ¬ dollar = openParen := by decide
    have h4 : ¬ openParen = backslash := by decide
    have h5 : ¬ openParen = singleQuote := by decide
    rw [ContainsShellLoop, if_neg (by simp), if_neg h1, if_neg h2, if_neg (by simp [h3]),
      ContainsShellLoop, if_neg (by simp), if_neg h4, if_neg h5, if_pos ⟨rfl, rfl, rfl⟩]
  have hskip : ContainsShellLoop false false (Char.ofNat 0) (openParen :: b.data) = false := by
    cases hres : ContainsShellLoop false false (Char.ofNat 0) (openParen :: b.data) with
    | false => rfl
    | true =>
      rcases ContainsShellLoop_true_pair _ _ _ _ hres with ⟨h0, _⟩ | hi
      · exact absurd h0 (by decide)
      · rcases List.infix_cons_iff.1 hi with hp | hp
        · obtain ⟨t, ht⟩ := hp
          have h0 : dollar = openParen := by
            have := congrArg List.head? ht
            simpa using this
          exact absurd h0 (by decide)
        · exact absurd hp hb
  unfold ContainsShell
  rw [hd, ContainsShellLoop_plain false _ a.data _ hplain
    (Or.inr (no_pair_after_start a.data ha3))]
  rcases Nat.even_or_odd' n with ⟨k, hk | hk⟩
  · obtain ⟨l2, h2⟩ := ContainsShellLoop_backslashes false (dollar :: openParen :: b.data) k
      (a.data.getLastD (Char.ofNat 0))
    rw [hk, h2, hfire]
    simp
  · obtain ⟨l2, h2⟩ := ContainsShellLoop_backslashes false
      (backslash :: dollar :: openParen :: b.data) k (a.data.getLastD (Char.ofNat 0))
    have hrep : List.replicate (2 * k + 1) backslash ++ dollar :: openParen :: b.data =
        List.replicate (2 * k) backslash ++ backslash :: dollar :: openParen :: b.data := by
      rw [List.replicate_succ', List.append_assoc]
      rfl
    rw [hk, hrep, h2, ContainsShellLoop_escape, hskip]
    simp

/-- C12 at `echo $(ls)` with no, one and two backslashes before the dollar sign. -/
theorem ContainsShell_backslash_parity_witness :
    ContainsShell "echo $(ls)" = true ∧ ContainsShell "echo \\$(ls)" = false ∧
      ContainsShell "echo \\\\$(ls)" = true :=
  ⟨(ContainsShell_backslash_parity "echo " "ls)" 0 (by decide) (by decide) (by decide)
      (by decide)).2 (by decide),
   Bool.eq_false_iff.2 fun h =>
    absurd ((ContainsShell_backslash_parity "echo " "ls)" 1 (by decide) (by decide) (by decide)
      (by decide)).1 h) (by decide),
   (ContainsShell_backslash_parity "echo " "ls)" 2 (by decide) (by decide) (by decide)
      (by decide)).2 (by decide)⟩

theorem escapedAt_of_no_backslash (s : List Char) (h : backslash ∉ s) :
    ∀ i, escapedAt s i = false := by
  intro i
  cases i with
  | zero => rfl
  | succ i =>
    have : ¬ s[i]? = some backslash := fun e => h (List.getElem?_mem e)
    simp [escapedAt, this]

theorem unescapedQuotesBefore_eq_count (s : List Char) (h : backslash ∉ s) :
    ∀ i, unescapedQuotesBefore s i = (s.take i).count singleQuote := by
  intro i
  induction i with
  | zero => simp [unescapedQuotesBefore]
  | succ i ih =>
    rw [unescapedQuotesBefore, ih, escapedAt_of_no_backslash s h i, List.take_succ,
      List.count_append]
    cases hs : s[i]? with
    | none => simp
    | some c =>
      by_cases hc : c = singleQuote
      · simp [hc]
      · have hc2 : ¬ singleQuote = c := fun e => hc e.symm
        simp [hc, hc2, List.count_singleton]

/-- C13: for every string without a backslash in which every `$(` is preceded by an odd
number of single quotes, `ContainsShell` returns false. -/
theorem ContainsShell_false_of_quoted_pairs (s : String) (hs : backslash ∉ s.data)
    (hq : ∀ i < s.data.length, s.data[i]? = some dollar → s.data[i + 1]? = some openParen →
      Odd ((s.data.take i).count singleQuote)) :
    ContainsShell s = false := by
  cases hres : ContainsShell s with
  | false => rfl
  | true =>
    obtain ⟨i, h1, h2, _, _, h5⟩ := (ContainsShellLoop_start s.data).1 hres
    have hi : i < s.data.length := (List.getElem?_eq_some.1 h1).1
    rw [unescapedQuotesBefore_eq_count s.data hs] at h5
    exact absurd h5 (Nat.not_even_iff_odd.2 (hq i hi h1 h2))

/-- C13 at `echo '$(ls)'`. -/
theorem ContainsShell_false_of_quoted_pairs_witness :
    ContainsShell "echo '$(ls)'" = false :=
  ContainsShell_false_of_quoted_pairs "echo '$(ls)'" (by decide) (by decide)

/-- C14: a closed single-quoted span leaves no trace in the scanner state: for every
`a` without backslash, single quote or `$(`, every `q` without backslash or single quote
and every `r`, `ContainsShell` on `a`, a quote, `q`, a quote and `r` equals
`ContainsShell(r)`. -/
theorem ContainsShell_closed_quote (a q r : String)
    (ha1 : backslash ∉ a.data) (ha2 : singleQuote ∉ a.data) (ha3 : ¬ "$(".data <:+: a.data)
    (hq1 : backslash ∉ q.data) (hq2 : singleQuote ∉ q.data) :
    ContainsShell (a ++ "'" ++ q ++ "'" ++ r) = ContainsShell r := by
  rw [pair_data] at ha3
  have hd : (a ++ "'" ++ q ++ "'" ++ r).data =
      a.data ++ (singleQuote :: (q.data ++ (singleQuote :: r.data))) := by
    simp only [String.data_append, quote_data, List.append_assoc]
    rfl
  have hpa : ∀ c ∈ a.data, c ≠ backslash ∧ c ≠ singleQuote :=
    fun c hc => ⟨fun e => ha1 (e ▸ hc), fun e => ha2 (e ▸ hc)⟩
  have hpq : ∀ c ∈ q.data, c ≠ backslash ∧ c ≠ singleQuote :=
    fun c hc => ⟨fun e => hq1 (e ▸ hc), fun e => hq2 (e ▸ hc)⟩
  unfold ContainsShell
  rw [hd, ContainsShellLoop_plain false _ a.data _ hpa (Or.inr (no_pair_after_start a.data ha3)),
    ContainsShellLoop_quote, Bool.not_false,
    ContainsShellLoop_plain true _ q.data _ hpq (Or.inl rfl),
    ContainsShellLoop_quote, Bool.not_true]

/-- C14 at `echo '$(ls)' $(pwd)`, where the pair after the closed span is detected. -/
theorem ContainsShell_closed_quote_witness :
    ContainsShell ("echo " ++ "'" ++ "$(ls)" ++ "'" ++ " $(pwd)") = ContainsShell " $(pwd)" ∧
      ContainsShell "echo '$(ls)' $(pwd)" = true :=
  ⟨ContainsShell_closed_quote "echo " "$(ls)" " $(pwd)" (by decide) (by decide) (by decide)
      (by decide) (by decide), by decide⟩

/-- C17: escape handling takes precedence over quote state: a backslash inside a
single-quoted span escapes the closing quote, so for every `r` without a single quote
`ContainsShell` on quote, backslash, quote and `r` is false. -/
theorem ContainsShell_escaped_closing_quote (r : String) (h : singleQuote ∉ r.data) :
    ContainsShell ("'\\'" ++ r) = false := by
  have hd : ("'\\'" ++ r).data = singleQuote :: backslash :: singleQuote :: r.data := by
    rw [String.data_append]
    rfl
  unfold ContainsShell
  rw [hd, ContainsShellLoop_quote, ContainsShellLoop_escape]
  exact ContainsShellLoop_quoted r.data _ _ h

/-- C17 at the input quote, backslash, quote, `$(ls)`. -/
theorem ContainsShell_escaped_closing_quote_witness :
    ContainsShell ("'\\'" ++ "$(ls)") = false :=
  ContainsShell_escaped_closing_quote "$(ls)" (by decide)

/-- C18: `ContainsShell` is monotone under extension on the right: when
`ContainsShell(s)` is true, so is `ContainsShell(s ++ t)` for every `t`. -/
theorem ContainsShell_append_of_true (s t : String) (h : ContainsShell s = true) :
    ContainsShell (s ++ t) = true := by
  unfold ContainsShell at h ⊢
  rw [String.data_append]
  exact ContainsShellLoop_append t.data s.data _ _ _ h

/-- C18 at `echo $(ls)` extended with a quote and a backslash. -/
theorem ContainsShell_append_of_true_witness :
    ContainsShell ("echo $(ls)" ++ "' \\") = true :=
  ContainsShell_append_of_true "echo $(ls)" "' \\" (by decide)

end Variables
